import Mathlib

set_option maxRecDepth 100000

/-!
Verification of the token-vocabulary trainer (src/main.rs, src/tokens.rs).

The development shallowly embeds the Rust sources:
  * byte strings become `List Nat` (each entry `< 256` where it matters);
  * `HashMap<Vec<u8>, usize>` becomes an association list where `insert`
    conses in front (the most recent insertion for a key shadows older ones,
    matching `HashMap::insert` overwrite semantics for lookups);
  * loops become folds or fuel-indexed recursion;
  * code that can `panic!` / `assert!` returns `Option`.

Namespace `MainRs` models `src/main.rs`, namespace `TokensRs` models
`src/tokens.rs`.
-/

/-- A byte string: the contents of a `Vec<u8>` / `&[u8]`. -/
abbrev ByteStr := List Nat

/-- Association-list model of `HashMap<Vec<u8>, usize>`: lookup. -/
def mapGet (m : List (ByteStr × Nat)) (k : ByteStr) : Option Nat :=
  (m.find? (fun p => p.1 == k)).map (fun p => p.2)

/-- Association-list model of `HashMap<Vec<u8>, usize>`: insert.
Consing in front makes the newest binding shadow older ones on lookup,
which matches `HashMap::insert` overwriting the value for a key. -/
def mapInsert (m : List (ByteStr × Nat)) (k : ByteStr) (v : Nat) :
    List (ByteStr × Nat) :=
  (k, v) :: m

/-- The association list that arises from inserting `(keys[i], i)` for
`i = 0, 1, ...` in order: reverse enumeration.  Both `TokenSet`
constructors and the rebuild in `remove_token` produce exactly this list. -/
def canonOf (keys : List ByteStr) : List (ByteStr × Nat) :=
  (keys.enum.map (fun p => (p.2, p.1))).reverse

@[simp] theorem mapGet_nil (k : ByteStr) : mapGet [] k = none := rfl

theorem mapGet_cons (p : ByteStr × Nat) (m : List (ByteStr × Nat)) (k : ByteStr) :
    mapGet (p :: m) k = if p.1 = k then some p.2 else mapGet m k := by
  by_cases h : p.1 = k
  · simp [mapGet, List.find?, h]
  · simp only [mapGet, List.find?]
    have : (p.1 == k) = false := by simpa using h
    simp [this, h]

@[simp] theorem canonOf_nil : canonOf [] = [] := rfl

theorem canonOf_append_singleton (keys : List ByteStr) (k : ByteStr) :
    canonOf (keys ++ [k]) = (k, keys.length) :: canonOf keys := by
  simp [canonOf, List.enum_append]

/-- `getD` over a left append stays in the left part. -/
theorem getD_append_left (l l' : List ByteStr) (j : Nat) (h : j < l.length) :
    (l ++ l').getD j [] = l.getD j [] := by
  rw [List.getD_eq_getElem _ _ (by simp; omega), List.getD_eq_getElem _ _ h]
  exact List.getElem_append_left h

theorem getD_append_self (l : List ByteStr) (k : ByteStr) :
    (l ++ [k]).getD l.length [] = k := by
  rw [List.getD_eq_getElem _ _ (by simp)]
  simp

/-- Lookup in the canonical association list: `some i` exactly when `i` is the
largest index holding the key. -/
theorem mapGet_canonOf (keys : List ByteStr) (s : ByteStr) :
    ∀ i, mapGet (canonOf keys) s = some i ↔
      (i < keys.length ∧ keys.getD i [] = s ∧
        ∀ j, i < j → j < keys.length → keys.getD j [] ≠ s) := by
  induction keys using List.reverseRecOn with
  | nil => intro i; simp [canonOf]
  | append_singleton keys k ih =>
    intro i
    rw [canonOf_append_singleton, mapGet_cons]
    by_cases hk : k = s
    · subst hk
      simp only [if_pos rfl]
      constructor
      · rintro h
        cases h
        refine ⟨by simp, getD_append_self keys k, ?_⟩
        intro j hj h2
        exfalso
        simp at h2
        omega
      · rintro ⟨h, hget, hmax⟩
        by_cases hi : i = keys.length
        · simp [hi]
        · exfalso
          have hi' : i < keys.length := by
            simp at h
            omega
          exact hmax keys.length hi' (by simp) (getD_append_self keys k)
    · rw [if_neg hk, ih i]
      constructor
      · rintro ⟨h, hget, hmax⟩
        refine ⟨by simp; omega, ?_, ?_⟩
        · rw [getD_append_left _ _ _ h]; exact hget
        · intro j hj h2
          by_cases hjl : j < keys.length
          · rw [getD_append_left _ _ _ hjl]
            exact hmax j hj hjl
          · have : j = keys.length := by simp at h2; omega
            subst this
            rw [getD_append_self keys k]
            exact hk
      · rintro ⟨h, hget, hmax⟩
        have hi : i < keys.length := by
          rcases Nat.lt_or_ge i keys.length with h' | h'
          · exact h'
          · exfalso
            have : i = keys.length := by simp at h; omega
            subst this
            rw [getD_append_self keys k] at hget
            exact hk hget
        refine ⟨hi, ?_, ?_⟩
        · rw [getD_append_left _ _ _ hi] at hget; exact hget
        · intro j hj h2
          have hj2 : j < keys.length + 1 := by omega
          have := hmax j hj (by simpa using hj2)
          rwa [getD_append_left _ _ _ h2] at this

theorem mapGet_canonOf_none (keys : List ByteStr) (s : ByteStr) :
    mapGet (canonOf keys) s = none ↔ ∀ x ∈ keys, x ≠ s := by
  induction keys using List.reverseRecOn with
  | nil => simp
  | append_singleton keys k ih =>
    rw [canonOf_append_singleton, mapGet_cons]
    by_cases hk : k = s
    · simp [hk]
    · simp only [if_neg hk, ih]
      constructor
      · intro h x hx
        rcases List.mem_append.1 hx with h' | h'
        · exact h x h'
        · simp at h'; subst h'; exact hk
      · intro h x hx
        exact h x (List.mem_append.2 (Or.inl hx))

/-- Membership side of `mapGet_canonOf`: the lookup succeeds iff the key occurs. -/
theorem mapGet_canonOf_isSome (keys : List ByteStr) (s : ByteStr) :
    (mapGet (canonOf keys) s).isSome ↔ s ∈ keys := by
  rcases h : mapGet (canonOf keys) s with _ | i
  · rw [mapGet_canonOf_none] at h
    simp only [Option.isSome_none, Bool.false_eq_true, false_iff]
    intro hs
    exact h s hs rfl
  · rcases (mapGet_canonOf keys s i).1 h with ⟨hlt, hget, _⟩
    simp only [Option.isSome_some, true_iff]
    rw [List.getD_eq_getElem _ _ hlt] at hget
    exact hget ▸ List.getElem_mem hlt

/-- The scan loop shared by `generate_suffixes` (start = 1), Phase A of
`create_suffix_states` (start = 0) and Phase B (start = 0): try
`mapGet m (p.drop start)`, `mapGet m (p.drop (start+1))`, ... while the start
is `< p.length`, returning the first hit. -/
def firstSuffixHitAux (m : List (ByteStr × Nat)) (p : ByteStr) :
    Nat → Nat → Option Nat
  | 0, _ => none
  | rem + 1, start =>
    match mapGet m (p.drop start) with
    | some idx => some idx
    | none => firstSuffixHitAux m p rem (start + 1)

def firstSuffixHit (m : List (ByteStr × Nat)) (p : ByteStr) (start : Nat) :
    Option Nat :=
  firstSuffixHitAux m p (p.length - start) start

theorem firstSuffixHitAux_eq_some (m : List (ByteStr × Nat)) (p : ByteStr) :
    ∀ (n start v : Nat), p.length - start = n →
    (firstSuffixHitAux m p n start = some v ↔
      ∃ k, start ≤ k ∧ k < p.length ∧ mapGet m (p.drop k) = some v ∧
        ∀ j, start ≤ j → j < k → mapGet m (p.drop j) = none) := by
  intro n
  induction n with
  | zero =>
    intro start v h
    rw [firstSuffixHitAux]
    refine ⟨fun hc => Option.noConfusion hc, ?_⟩
    rintro ⟨k, hk1, hk2, -, -⟩
    omega
  | succ n ih =>
    intro start v h
    have hs : start < p.length := by omega
    rw [firstSuffixHitAux]
    cases hm : mapGet m (p.drop start) with
    | some idx =>
      simp only [hm]
      constructor
      · intro hiv
        have hiv' : idx = v := Option.some.inj hiv
        subst hiv'
        exact ⟨start, le_rfl, hs, hm, fun j h1 h2 => absurd h1 (by omega)⟩
      · rintro ⟨k, hk1, hk2, hk3, hk4⟩
        rcases Nat.eq_or_lt_of_le hk1 with rfl | hk
        · rw [hm] at hk3
          exact hk3
        · exact absurd (hk4 start le_rfl hk) (by simp [hm])
    | none =>
      simp only [hm]
      rw [ih (start + 1) v (by omega)]
      constructor
      · rintro ⟨k, hk1, hk2, hk3, hk4⟩
        refine ⟨k, by omega, hk2, hk3, ?_⟩
        intro j h1 h2
        rcases Nat.eq_or_lt_of_le h1 with rfl | hj
        · exact hm
        · exact hk4 j hj h2
      · rintro ⟨k, hk1, hk2, hk3, hk4⟩
        have hk : start + 1 ≤ k := by
          rcases Nat.eq_or_lt_of_le hk1 with rfl | hj
          · rw [hm] at hk3; exact absurd hk3 (by simp)
          · omega
        exact ⟨k, hk, hk2, hk3, fun j h1 h2 => hk4 j (by omega) h2⟩

theorem firstSuffixHit_eq_some (m : List (ByteStr × Nat)) (p : ByteStr)
    (start v : Nat) :
    firstSuffixHit m p start = some v ↔
      ∃ k, start ≤ k ∧ k < p.length ∧ mapGet m (p.drop k) = some v ∧
        ∀ j, start ≤ j → j < k → mapGet m (p.drop j) = none :=
  firstSuffixHitAux_eq_some m p (p.length - start) start v rfl

theorem firstSuffixHitAux_eq_none (m : List (ByteStr × Nat)) (p : ByteStr) :
    ∀ (n start : Nat), p.length - start = n →
    (firstSuffixHitAux m p n start = none ↔
      ∀ k, start ≤ k → k < p.length → mapGet m (p.drop k) = none) := by
  intro n
  induction n with
  | zero =>
    intro start h
    rw [firstSuffixHitAux]
    simp only [true_iff]
    intro k h1 h2
    omega
  | succ n ih =>
    intro start h
    have hs : start < p.length := by omega
    rw [firstSuffixHitAux]
    cases hm : mapGet m (p.drop start) with
    | some idx =>
      simp only [hm]
      constructor
      · intro hc
        exact Option.noConfusion hc
      · intro hall
        exact absurd (hall start le_rfl hs) (by simp [hm])
    | none =>
      simp only [hm]
      rw [ih (start + 1) (by omega)]
      constructor
      · intro hall k h1 h2
        rcases Nat.eq_or_lt_of_le h1 with rfl | hj
        · exact hm
        · exact hall k hj h2
      · intro hall k h1 h2
        exact hall k (by omega) h2

theorem firstSuffixHit_eq_none (m : List (ByteStr × Nat)) (p : ByteStr)
    (start : Nat) :
    firstSuffixHit m p start = none ↔
      ∀ k, start ≤ k → k < p.length → mapGet m (p.drop k) = none :=
  firstSuffixHitAux_eq_none m p (p.length - start) start rfl

namespace MainRs

/-- `Token` from src/main.rs (lines 32-48). -/
structure Token where
  string : ByteStr
  is_literal : Bool
  suffix : Option Nat
deriving DecidableEq

/-- Default used to model (never-taken, under the stated invariants)
out-of-bounds indexing. -/
def dTok : Token := ⟨[], false, none⟩

/-- `TokenSet` from src/main.rs (lines 50-56). -/
structure TokenSet where
  tokens : List Token
  tokens_by_string : List (ByteStr × Nat)
  literal_cost : Nat
  ntokens : Nat
deriving DecidableEq

/-- `TokenSet::add_token` from src/main.rs (lines 59-72): a no-op when the
string is already mapped to a non-literal token, otherwise appends. -/
def TokenSet.addToken (ts : TokenSet) (string : ByteStr) (is_lit : Bool) :
    TokenSet :=
  let skip :=
    match mapGet ts.tokens_by_string string with
    | some existing => !(ts.tokens.getD existing dTok).is_literal
    | none => false
  if skip then ts
  else
    { tokens := ts.tokens ++ [⟨string, is_lit, none⟩],
      tokens_by_string := mapInsert ts.tokens_by_string string ts.tokens.length,
      literal_cost := ts.literal_cost,
      ntokens := ts.ntokens + 1 }

/-- `TokenSet::build_with_bin_literals` from src/main.rs (lines 98-115). -/
def TokenSet.buildWithBinLiterals : TokenSet :=
  let ts0 : TokenSet := ⟨[], [], 8, 0⟩
  let ts1 := (List.range 256).foldl (fun ts i => ts.addToken [i] true) ts0
  let ts2 := (ts1.addToken [0x11] false).addToken [0x12] false
  { ts2 with ntokens := ts2.tokens.length }

/-- `TokenSet::build_with_hex_literals` from src/main.rs (lines 74-96). -/
def TokenSet.buildWithHexLiterals : TokenSet :=
  let ts0 : TokenSet := ⟨[], [], 3, 0⟩
  let ts1 := (List.range 256).foldl (fun ts i => ts.addToken [i] true) ts0
  let ts2 := ts1.addToken [0x10] false
  let ts3 := (List.range 10).foldl (fun ts i => ts.addToken [48 + i] false) ts2
  let ts4 := (List.range 6).foldl (fun ts i => ts.addToken [97 + i] false) ts3
  { ts4 with ntokens := ts4.tokens.length }

/-- `TokenSet::generate_suffixes` from src/main.rs (lines 117-127): for each
token of index `>= 256`, scan starts `1, 2, ...` of its string and store the
first reverse-map hit in `suffix` (leaving `suffix` unchanged when no start
hits). -/
def TokenSet.generateSuffixes (ts : TokenSet) : TokenSet :=
  { ts with
    tokens := ts.tokens.mapIdx (fun i tok =>
      if i < 256 then tok
      else
        match firstSuffixHit ts.tokens_by_string tok.string 1 with
        | some idx => { tok with suffix := some idx }
        | none => tok) }

/-- `SuffixState` from src/main.rs (lines 151-166); `next` is the dense
256-entry successor table. -/
structure SuffixState where
  suffix : ByteStr
  token_id : Nat
  next : List Nat
deriving DecidableEq

def dSS : SuffixState := ⟨[], 0, []⟩

/-- Body of Phase A of `Tokenizer::create_suffix_states` (lines 241-266):
add a state for the token prefix `p` unless one exists, computing its
`token_id` by scanning suffixes of `p` from the longest down in
`tokens_by_string`.  The `getD 0` models the `unwrap` after
`assert!(suffix_token.is_some())`. -/
def addPrefixState (tbs : List (ByteStr × Nat))
    (acc : List SuffixState × List (ByteStr × Nat)) (p : ByteStr) :
    List SuffixState × List (ByteStr × Nat) :=
  if (mapGet acc.2 p).isSome then acc
  else
    let st : SuffixState := ⟨p, (firstSuffixHit tbs p 0).getD 0, List.replicate 256 0⟩
    (acc.1 ++ [st], mapInsert acc.2 p acc.1.length)

/-- Phase A of `Tokenizer::create_suffix_states`: enumerate all non-empty
token prefixes as states, plus the root state 0 for the empty string. -/
def phaseA (ts : TokenSet) : List SuffixState × List (ByteStr × Nat) :=
  ts.tokens.foldl
    (fun acc tok =>
      (List.range tok.string.length).foldl
        (fun acc e => addPrefixState ts.tokens_by_string acc (tok.string.take (e + 1)))
        acc)
    ([⟨[], 0, List.replicate 256 0⟩], mapInsert [] [] 0)

/-- Phase B of `Tokenizer::create_suffix_states` (lines 268-289): for each
byte `b`, the successor is the state of the longest non-empty suffix of
`state.suffix ++ [b]` that is a state (scan starts `0, 1, ...`); the
`getD 0` models the `unwrap`. -/
def fillNext (sbs : List (ByteStr × Nat)) (st : SuffixState) : SuffixState :=
  { st with
    next := (List.range 256).map
      (fun b => (firstSuffixHit sbs (st.suffix ++ [b]) 0).getD 0) }

/-- `Tokenizer::create_suffix_states` from src/main.rs (lines 233-292). -/
def createSuffixStates (ts : TokenSet) : List SuffixState :=
  let a := phaseA ts
  a.1.map (fillNext a.2)

/-- `DynState` from src/main.rs (lines 168-171): one DP cell. -/
structure DynState where
  cost : Nat
  token_id : Nat
deriving DecidableEq

def dDyn : DynState := ⟨0, 0⟩

/-- `usize::MAX`, the initial `cost` of the running best in the DP loop. -/
def USIZE_MAX : Nat := 2 ^ 64 - 1

/-- `TokenStats` from src/main.rs (lines 173-178). -/
structure TokenStats where
  token_count : List Nat
  pair_count : List Nat
  cost : Nat
  scanned_bytes : Nat
deriving DecidableEq

/-- `TokenStats::new` from src/main.rs (lines 181-196). -/
def TokenStats.new (token_set : TokenSet) : TokenStats :=
  let n := token_set.tokens.length
  ⟨List.replicate n 0, List.replicate (n * n) 0, 0, 0⟩

/-- `TokenStats::add` from src/main.rs (lines 198-207): element-wise sums over
`self`'s index ranges. -/
def TokenStats.add (a other : TokenStats) : TokenStats :=
  { token_count := (List.range a.token_count.length).map
      (fun i => a.token_count.getD i 0 + other.token_count.getD i 0),
    pair_count := (List.range a.pair_count.length).map
      (fun i => a.pair_count.getD i 0 + other.pair_count.getD i 0),
    cost := a.cost + other.cost,
    scanned_bytes := a.scanned_bytes + other.scanned_bytes }

/-- `Tokenizer` from src/main.rs (lines 210-215). -/
structure Tokenizer where
  token_set : TokenSet
  suffix_states : List SuffixState
  current_state : Nat
  cost_array : List DynState

/-- `Tokenizer::new` from src/main.rs (lines 218-231): regenerates the suffix
links, builds the automaton, and seeds the DP array with the sentinel cell
`(0, 0x13)`. -/
def Tokenizer.new (token_set : TokenSet) : Tokenizer :=
  let token_set := token_set.generateSuffixes
  { token_set := token_set,
    suffix_states := createSuffixStates token_set,
    current_state := 0,
    cost_array := [⟨0, 0x13⟩] }

/-- `Tokenizer::reset` from src/main.rs (lines 294-301). -/
def Tokenizer.reset (tk : Tokenizer) : Tokenizer :=
  { tk with current_state := 0, cost_array := [⟨0, 0x13⟩] }

/-- The `loop` in `process_byte`/`process_slice` (lines 316-336 / 354-374):
walk the suffix-link chain from `token_id`, keeping the first strict
minimum of `DP[len - |token|] + token cost`.  The Rust loop runs until the
chain ends; the fuel argument (always called with more fuel than the chain
is long) makes the recursion structural. -/
def bestOnChain (tokens : List Token) (literal_cost : Nat)
    (cost_array : List DynState) : Nat → Nat → DynState → DynState
  | 0, _, best => best
  | fuel + 1, token_id, best =>
    let token := tokens.getD token_id dTok
    let prev_cost := (cost_array.getD (cost_array.length - token.string.length) dDyn).cost
    let new_cost := prev_cost + (if token.is_literal then literal_cost else 1)
    let best' := if new_cost < best.cost then DynState.mk new_cost token_id else best
    match token.suffix with
    | some t => bestOnChain tokens literal_cost cost_array fuel t best'
    | none => best'

/-- `Tokenizer::process_byte` from src/main.rs (lines 303-339). -/
def Tokenizer.processByte (tk : Tokenizer) (byte : Nat) : Tokenizer :=
  let prev_state := tk.suffix_states.getD tk.current_state dSS
  let cur := prev_state.next.getD byte 0
  let state := tk.suffix_states.getD cur dSS
  let best := bestOnChain tk.token_set.tokens tk.token_set.literal_cost tk.cost_array
      (tk.token_set.tokens.length + 1) state.token_id ⟨USIZE_MAX, 0⟩
  { tk with current_state := cur, cost_array := tk.cost_array ++ [best] }

/-- The loop of `Tokenizer::process_slice` (lines 344-377), carrying the
`state` local variable exactly as the Rust code does. -/
def Tokenizer.processSliceAux (tk : Tokenizer) (state : SuffixState) :
    List Nat → Tokenizer
  | [] => tk
  | byte :: rest =>
    let cur := state.next.getD byte 0
    let st2 := tk.suffix_states.getD cur dSS
    let best := bestOnChain tk.token_set.tokens tk.token_set.literal_cost tk.cost_array
        (tk.token_set.tokens.length + 1) st2.token_id ⟨USIZE_MAX, 0⟩
    Tokenizer.processSliceAux
      { tk with current_state := cur, cost_array := tk.cost_array ++ [best] }
      st2 rest

/-- `Tokenizer::process_slice` from src/main.rs (lines 341-378). -/
def Tokenizer.processSlice (tk : Tokenizer) (bytes : List Nat) : Tokenizer :=
  tk.processSliceAux (tk.suffix_states.getD tk.current_state dSS) bytes

/-- `vec[i] += 1` on a statistics bucket. -/
def listIncr (l : List Nat) (i : Nat) : List Nat := l.set i (l.getD i 0 + 1)

/-- The back-trace loop of `Tokenizer::get_stats` (lines 389-398).  The fuel
(always called with `cost_array.length`, more than the number of iterations)
makes the recursion structural. -/
def Tokenizer.getStatsAux (tk : Tokenizer) : Nat → Nat → Nat → TokenStats → TokenStats
  | 0, _, _, stats => stats
  | fuel + 1, pos, next_token_id, stats =>
    if pos = 0 then stats
    else
      let token_id := (tk.cost_array.getD pos dDyn).token_id
      let token := tk.token_set.tokens.getD token_id dTok
      let stats' := { stats with
        token_count := listIncr stats.token_count token_id,
        pair_count := listIncr stats.pair_count
          (token_id * tk.token_set.ntokens + next_token_id) }
      Tokenizer.getStatsAux tk fuel (pos - token.string.length) token_id stats'

/-- `Tokenizer::get_stats` from src/main.rs (lines 380-401). -/
def Tokenizer.getStats (tk : Tokenizer) : TokenStats :=
  let stats0 := TokenStats.new tk.token_set
  let pos := tk.cost_array.length - 1
  Tokenizer.getStatsAux tk tk.cost_array.length pos 0
    { stats0 with
      cost := (tk.cost_array.getD pos dDyn).cost,
      scanned_bytes := pos }

/-- The token-index sequence visited by the back-trace loop of `get_stats`
(collected in left-to-right order): the segmentation the DP recovers. -/
def Tokenizer.backtraceAux (tk : Tokenizer) : Nat → Nat → List Nat → List Nat
  | 0, _, acc => acc
  | fuel + 1, pos, acc =>
    if pos = 0 then acc
    else
      let token_id := (tk.cost_array.getD pos dDyn).token_id
      let token := tk.token_set.tokens.getD token_id dTok
      Tokenizer.backtraceAux tk fuel (pos - token.string.length) (token_id :: acc)

def Tokenizer.backtrace (tk : Tokenizer) : List Nat :=
  tk.backtraceAux tk.cost_array.length (tk.cost_array.length - 1) []

/-- `CHUNK_SIZE` from src/main.rs (line 404). -/
def CHUNK_SIZE : Nat := 32 * 1024 * 1024

/-- `BUFFER_SIZE` from src/main.rs (line 405). -/
def BUFFER_SIZE : Nat := 256 * 1024

/-- One step of the `while` loop in `split_into_chunks` (lines 595-605):
the end of the chunk that starts at `split`:  `min (split + chunk_size)
data.length` extended to just past the next 0x13 byte (end of data when
there is none). -/
def chunkEnd (data : List Nat) (chunk_size split : Nat) : Nat :=
  match (data.drop (min (split + chunk_size) data.length)).findIdx? (fun b => b == 0x13) with
  | some p => min (split + chunk_size) data.length + p + 1
  | none => data.length

theorem lt_chunkEnd (data : List Nat) (chunk_size split : Nat)
    (h : split < data.length) : split < chunkEnd data chunk_size split := by
  have hb : split ≤ min (split + chunk_size) data.length :=
    le_min (Nat.le_add_right _ _) (Nat.le_of_lt h)
  unfold chunkEnd
  rcases hfind : (data.drop (min (split + chunk_size) data.length)).findIdx?
      (fun b => b == 0x13) with _ | p
  · simp only [hfind]
    exact h
  · simp only [hfind]
    omega

/-- The `while` loop of `split_into_chunks`, producing the split points after
0.  Each iteration strictly increases `split` (`lt_chunkEnd`), so the loop
runs at most `data.length` times; the fuel, always instantiated with
`data.length + 1`, makes the recursion structural without cutting any
iteration short. -/
def splitChunksAux (data : List Nat) (chunk_size : Nat) : Nat → Nat → List Nat
  | 0, _ => []
  | fuel + 1, split =>
    if split < data.length then
      chunkEnd data chunk_size split ::
        splitChunksAux data chunk_size fuel (chunkEnd data chunk_size split)
    else []

/-- `split_into_chunks` from src/main.rs (lines 588-630), with the byte
contents of the file passed as a list. -/
def splitIntoChunks (data : List Nat) (chunk_size : Nat) : List Nat :=
  0 :: splitChunksAux data chunk_size (data.length + 1) 0

/-- The literal-argmax and pair-argmax loops of `optimize_bpe`
(lines 526-534 and 541-548): fold `(top, top_count)` over `0..bound`,
updating on a strict increase. -/
def topCountLoop (counts : List Nat) (bound : Nat) : Nat × Nat :=
  (List.range bound).foldl
    (fun acc i => if counts.getD i 0 > acc.2 then (i, counts.getD i 0) else acc)
    (0, 0)

/-- The candidate-token selection of one `optimize_bpe` epoch
(lines 526-564): the top literal byte when its count beats the top pair
count, otherwise the concatenation of the top pair's strings. -/
def epochNewTokenStr (token_set : TokenSet) (stats : TokenStats) : ByteStr :=
  let lit := topCountLoop stats.token_count 256
  let pair := topCountLoop stats.pair_count stats.pair_count.length
  let ifirst := pair.1 / token_set.ntokens
  let isecond := pair.1 % token_set.ntokens
  let token_str := (token_set.tokens.getD ifirst dTok).string ++
    (token_set.tokens.getD isecond dTok).string
  if lit.2 > pair.2 then [lit.1] else token_str

/-- `optimize_bpe` from src/main.rs (lines 515-586).  `scan` abstracts
`tokenize_file` over the fixed corpus and splits; the fuel makes the
(possibly diverging) `while` loop structural. -/
def optimizeBpe (scan : TokenSet → TokenStats) (token_set : TokenSet)
    (ntokens : Nat) : Nat → TokenSet
  | 0 => token_set
  | fuel + 1 =>
    if token_set.ntokens < 256 + ntokens then
      let stats := scan token_set
      let new_token_set := token_set.addToken (epochNewTokenStr token_set stats) false
      optimizeBpe scan new_token_set ntokens fuel
    else token_set

end MainRs

namespace TokensRs

/-- `Token` from src/tokens.rs (lines 4-24). -/
structure Token where
  string : ByteStr
  is_literal : Bool
  is_mandatory : Bool
  suffix : Option Nat
  cost : Nat
deriving DecidableEq

/-- `Token::new` from src/tokens.rs (lines 14-24). -/
def Token.new (string : ByteStr) (is_literal is_mandatory : Bool) (cost : Nat) :
    Token :=
  ⟨string, is_literal, is_mandatory, none, cost⟩

def dTok : Token := ⟨[], false, false, none, 0⟩

/-- `TokenSet` from src/tokens.rs (lines 26-32). -/
structure TokenSet where
  tokens : List Token
  tokens_by_string : List (ByteStr × Nat)
  literal_cost : Nat
  fallback16 : Bool
deriving DecidableEq

/-- `TokenSet::ntokens` from src/tokens.rs (lines 35-37). -/
def TokenSet.ntokens (ts : TokenSet) : Nat := ts.tokens.length

/-- `TokenSet::add_mandatory_token` from src/tokens.rs (lines 39-48); `none`
models the `assert!(existing.is_literal)` panic. -/
def TokenSet.addMandatoryToken (ts : TokenSet) (string : ByteStr) :
    Option TokenSet :=
  let ok :=
    match mapGet ts.tokens_by_string string with
    | some existing => (ts.tokens.getD existing dTok).is_literal
    | none => true
  if ok then
    some { ts with
      tokens := ts.tokens ++ [Token.new string false true 1],
      tokens_by_string := mapInsert ts.tokens_by_string string ts.tokens.length }
  else none

/-- `TokenSet::add_token` from src/tokens.rs (lines 50-63); `none` models the
`assert!(existing.is_literal || existing.is_mandatory)` panic, which fires
when the string is already present as a plain (optional) non-literal. -/
def TokenSet.addToken (ts : TokenSet) (string : ByteStr) : Option TokenSet :=
  match mapGet ts.tokens_by_string string with
  | some existing =>
    if (ts.tokens.getD existing dTok).is_literal ||
        (ts.tokens.getD existing dTok).is_mandatory then
      if !(ts.tokens.getD existing dTok).is_literal then some ts
      else
        some { ts with
          tokens := ts.tokens ++ [Token.new string false false 1],
          tokens_by_string := mapInsert ts.tokens_by_string string ts.tokens.length }
    else none
  | none =>
    some { ts with
      tokens := ts.tokens ++ [Token.new string false false 1],
      tokens_by_string := mapInsert ts.tokens_by_string string ts.tokens.length }

/-- `TokenSet::add_literal` from src/tokens.rs (lines 65-70). -/
def TokenSet.addLiteral (ts : TokenSet) (value : Nat) : TokenSet :=
  { ts with
    tokens := ts.tokens ++ [Token.new [value] true false ts.literal_cost],
    tokens_by_string := mapInsert ts.tokens_by_string [value] ts.tokens.length }

/-- `TokenSet::remove_token` from src/tokens.rs (lines 72-85); `none` models
the `unwrap` on a missing string and the three asserts (literal index,
literal flag, mandatory flag).  On success the token is removed and the
reverse map rebuilt by inserting `(tokens[i].string, i)` for `i` ascending,
i.e. it becomes the canonical association list of the remaining strings. -/
def TokenSet.removeToken (ts : TokenSet) (token_str : ByteStr) :
    Option TokenSet :=
  match mapGet ts.tokens_by_string token_str with
  | none => none
  | some token_id =>
    if token_id < 256 then none
    else if (ts.tokens.getD token_id dTok).is_literal then none
    else if (ts.tokens.getD token_id dTok).is_mandatory then none
    else
      some { ts with
        tokens := ts.tokens.eraseIdx token_id,
        tokens_by_string := canonOf ((ts.tokens.eraseIdx token_id).map Token.string) }

/-- `TokenSet::generate_suffixes` from src/tokens.rs (lines 152-162);
textually identical to the src/main.rs version. -/
def TokenSet.generateSuffixes (ts : TokenSet) : TokenSet :=
  { ts with
    tokens := ts.tokens.mapIdx (fun i tok =>
      if i < 256 then tok
      else
        match firstSuffixHit ts.tokens_by_string tok.string 1 with
        | some idx => { tok with suffix := some idx }
        | none => tok) }

/-- One step of an arbitrary add/remove sequence: a failing (panicking) call
leaves the set as it was. -/
def applyOp (ts : TokenSet) (op : ByteStr ⊕ ByteStr) : TokenSet :=
  match op with
  | Sum.inl s => (ts.addToken s).getD ts
  | Sum.inr s => (ts.removeToken s).getD ts

/-- An arbitrary sequence of `add_token` / `remove_token` calls. -/
def applyOps (ts : TokenSet) (ops : List (ByteStr ⊕ ByteStr)) : TokenSet :=
  ops.foldl applyOp ts

end TokensRs

namespace MainRs

/-- Spec-side: `p` is a (possibly empty) prefix of some token's string. -/
def isPrefOfTok (tokens : List Token) (p : ByteStr) : Bool :=
  tokens.any (fun tok => decide (p <+: tok.string))

/-- Spec-side, from the spec's words: the longest suffix of `x` that is a
prefix of some token of the set. -/
def longestSufPref (tokens : List Token) : ByteStr → ByteStr
  | [] => []
  | b :: rest =>
    if isPrefOfTok tokens (b :: rest) then b :: rest else longestSufPref tokens rest

/-- Spec-side: walking the transition table built by `create_suffix_states`
byte-by-byte from state 0. -/
def walkBytes (tk : Tokenizer) (x : List Nat) : Nat :=
  x.foldl (fun s b => (tk.suffix_states.getD s dSS).next.getD b 0) 0

/-- Spec-side: `seg`, a list of token indices, is a segmentation of `x` into
tokens of the set. -/
def Segmentation (ts : TokenSet) (x : ByteStr) (seg : List Nat) : Prop :=
  (∀ t ∈ seg, t < ts.tokens.length) ∧
  (seg.map (fun t => (ts.tokens.getD t dTok).string)).flatten = x

/-- The cost the code attributes to emitting token `t`
(src/main.rs lines 319-324): `literal_cost` for a literal, 1 otherwise. -/
def tokCost (ts : TokenSet) (t : Nat) : Nat :=
  if (ts.tokens.getD t dTok).is_literal then ts.literal_cost else 1

/-- Spec-side: the total cost of a segmentation. -/
def segCost (ts : TokenSet) (seg : List Nat) : Nat :=
  (seg.map (tokCost ts)).sum

/-- Well-formedness of a `TokenSet`: the invariants of §3 of the spec,
established by the preset constructors followed by `add_token` calls
(before suffix generation).  The first 256 tokens are the single-byte
literals in order; every further token is a non-empty non-literal with a
fresh (`none`) suffix field; token bytes are bytes; non-literal strings are
pairwise distinct; the reverse map is the canonical association list of the
strings; the literal cost is positive (3 or 8 in the presets). -/
def WF (ts : TokenSet) : Prop :=
  256 ≤ ts.tokens.length ∧
  (∀ b < 256, ts.tokens.getD b dTok = ⟨[b], true, none⟩) ∧
  (∀ i < ts.tokens.length, 256 ≤ i →
    (ts.tokens.getD i dTok).is_literal = false ∧
    (ts.tokens.getD i dTok).string ≠ [] ∧
    (ts.tokens.getD i dTok).suffix = none) ∧
  (∀ i < ts.tokens.length, ∀ b ∈ (ts.tokens.getD i dTok).string, b < 256) ∧
  (∀ i < ts.tokens.length, ∀ j < ts.tokens.length, 256 ≤ i → i < j →
    (ts.tokens.getD i dTok).string ≠ (ts.tokens.getD j dTok).string) ∧
  ts.tokens_by_string = canonOf (ts.tokens.map Token.string) ∧
  1 ≤ ts.literal_cost

instance (ts : TokenSet) : Decidable (WF ts) := by
  have h1 : Decidable (256 ≤ ts.tokens.length) := inferInstance
  have h2 : Decidable (∀ b < 256, ts.tokens.getD b dTok = ⟨[b], true, none⟩) :=
    inferInstance
  have h3 : Decidable (∀ i < ts.tokens.length, 256 ≤ i →
      (ts.tokens.getD i dTok).is_literal = false ∧
      (ts.tokens.getD i dTok).string ≠ [] ∧
      (ts.tokens.getD i dTok).suffix = none) := inferInstance
  have h4 : Decidable (∀ i < ts.tokens.length,
      ∀ b ∈ (ts.tokens.getD i dTok).string, b < 256) := inferInstance
  have h5 : Decidable (∀ i < ts.tokens.length, ∀ j < ts.tokens.length,
      256 ≤ i → i < j →
      (ts.tokens.getD i dTok).string ≠ (ts.tokens.getD j dTok).string) :=
    inferInstance
  have h6 : Decidable (ts.tokens_by_string = canonOf (ts.tokens.map Token.string)) :=
    inferInstance
  have h7 : Decidable (1 ≤ ts.literal_cost) := inferInstance
  unfold WF
  exact @instDecidableAnd _ _ h1 (@instDecidableAnd _ _ h2 (@instDecidableAnd _ _ h3
    (@instDecidableAnd _ _ h4 (@instDecidableAnd _ _ h5 (@instDecidableAnd _ _ h6 h7)))))

/-- The 256 single-byte literal tokens, in byte order. -/
def tsLitTokens : List Token := (List.range 256).map (fun b => Token.mk [b] true none)

/-- A 256-literal token set (the common literal block both preset
constructors start from), used to instantiate the theorems. -/
def tsLit : TokenSet := ⟨tsLitTokens, canonOf (tsLitTokens.map Token.string), 8, 256⟩

/-- `tsLit` extended by the non-literal tokens "bc" and "abc": exhibits a
token with two distinct non-trivial token suffixes. -/
def tsC7 : TokenSet := (tsLit.addToken [98, 99] false).addToken [97, 98, 99] false

end MainRs

namespace TokensRs

/-- Well-formedness of a src/tokens.rs `TokenSet`: first 256 tokens are the
single-byte literals in order, non-literals only beyond them, and the
reverse map is the canonical association list of the strings. -/
def WF (ts : TokenSet) : Prop :=
  256 ≤ ts.tokens.length ∧
  (∀ b < 256, (ts.tokens.getD b dTok).string = [b] ∧
    (ts.tokens.getD b dTok).is_literal = true ∧
    (ts.tokens.getD b dTok).is_mandatory = false) ∧
  (∀ i < ts.tokens.length, 256 ≤ i → (ts.tokens.getD i dTok).is_literal = false) ∧
  ts.tokens_by_string = canonOf (ts.tokens.map Token.string)

instance (ts : TokenSet) : Decidable (WF ts) := by
  have h1 : Decidable (256 ≤ ts.tokens.length) := inferInstance
  have h2 : Decidable (∀ b < 256, (ts.tokens.getD b dTok).string = [b] ∧
      (ts.tokens.getD b dTok).is_literal = true ∧
      (ts.tokens.getD b dTok).is_mandatory = false) := inferInstance
  have h3 : Decidable (∀ i < ts.tokens.length, 256 ≤ i →
      (ts.tokens.getD i dTok).is_literal = false) := inferInstance
  have h4 : Decidable (ts.tokens_by_string = canonOf (ts.tokens.map Token.string)) :=
    inferInstance
  unfold WF
  exact @instDecidableAnd _ _ h1 (@instDecidableAnd _ _ h2 (@instDecidableAnd _ _ h3 h4))

/-- A 256-literal token set with hex-preset literal cost, plus the mandatory
token 0x10 (the state `build_with_hex_literals` reaches right after the
literal block and its first mandatory token). -/
def tsLitM : TokenSet :=
  ⟨(List.range 256).map (fun b => Token.new [b] true false 3) ++ [Token.new [0x10] false true 1],
   canonOf ((((List.range 256).map (fun b => Token.new [b] true false 3)) ++
     [Token.new [0x10] false true 1]).map Token.string),
   3, true⟩

end TokensRs

namespace MainRs

/-- The chain of token ids visited by the `loop` of `process_byte` /
`process_slice`, reified as a list (same fuel discipline as `bestOnChain`). -/
def chainList (tokens : List Token) : Nat → Nat → List Nat
  | 0, _ => []
  | fuel + 1, token_id =>
    token_id ::
      (match (tokens.getD token_id dTok).suffix with
       | some t => chainList tokens fuel t
       | none => [])

/-- Spec-side: the maximum of a list of counts (0 when empty). -/
def listMax (l : List Nat) : Nat := l.foldr max 0

end MainRs

/-! ### Generic list helpers -/

theorem getD_append_lt {α : Type} (l l' : List α) (d : α) (j : Nat)
    (h : j < l.length) : (l ++ l').getD j d = l.getD j d := by
  rw [List.getD_eq_getElem _ _ (by simp; omega), List.getD_eq_getElem _ _ h]
  exact List.getElem_append_left h

theorem getD_default_of_le {α : Type} (l : List α) (d : α) (j : Nat)
    (h : l.length ≤ j) : l.getD j d = d := by
  rw [List.getD_eq_getElem?_getD, List.getElem?_eq_none h]
  rfl

theorem rangeMap_getD (n : Nat) (f : Nat → Nat) (i : Nat) :
    ((List.range n).map f).getD i 0 = if i < n then f i else 0 := by
  by_cases h : i < n
  · rw [List.getD_eq_getElem _ _ (by simpa using h), if_pos h]
    simp
  · rw [if_neg h, getD_default_of_le _ _ _ (by simpa using h)]

/-! ### C10: process_slice is byte-by-byte processing -/

theorem processSliceAux_eq_foldl (bytes : List Nat) :
    ∀ tk : MainRs.Tokenizer,
    tk.processSliceAux (tk.suffix_states.getD tk.current_state MainRs.dSS) bytes =
      bytes.foldl MainRs.Tokenizer.processByte tk := by
  induction bytes with
  | nil => intro tk; rfl
  | cons b rest ih =>
    intro tk
    have h : tk.processSliceAux
        (tk.suffix_states.getD tk.current_state MainRs.dSS) (b :: rest) =
        (tk.processByte b).processSliceAux
          ((tk.processByte b).suffix_states.getD
            (tk.processByte b).current_state MainRs.dSS) rest := rfl
    rw [h, ih (tk.processByte b), List.foldl_cons]

/-! ### C9: TokenStats addition -/

namespace MainRs

/-- The element-wise sum both loops of `TokenStats::add` compute. -/
def addVec (x y : List Nat) : List Nat :=
  (List.range x.length).map (fun i => x.getD i 0 + y.getD i 0)

theorem TokenStats.add_eq (a b : TokenStats) :
    a.add b = ⟨addVec a.token_count b.token_count, addVec a.pair_count b.pair_count,
      a.cost + b.cost, a.scanned_bytes + b.scanned_bytes⟩ := rfl

@[simp] theorem addVec_length (x y : List Nat) : (addVec x y).length = x.length := by
  simp [addVec]

theorem addVec_getD (x y : List Nat) (i : Nat) :
    (addVec x y).getD i 0 = if i < x.length then x.getD i 0 + y.getD i 0 else 0 :=
  rangeMap_getD _ _ _

theorem addVec_comm (x y : List Nat) (h : x.length = y.length) :
    addVec x y = addVec y x := by
  unfold addVec
  rw [h]
  apply List.ext_getElem (by simp)
  intro n h1 h2
  simp only [List.getElem_map, List.getElem_range]
  exact Nat.add_comm _ _

theorem addVec_assoc (x y z : List Nat) (hxy : x.length = y.length) :
    addVec (addVec x y) z = addVec x (addVec y z) := by
  apply List.ext_getElem (by simp [addVec])
  intro n h1 h2
  have hn : n < x.length := by simpa [addVec] using h1
  simp only [addVec, List.getElem_map, List.getElem_range]
  rw [rangeMap_getD, rangeMap_getD, if_pos hn, if_pos (hxy ▸ hn)]
  exact Nat.add_assoc _ _ _

end MainRs

/-! ### C8: chunk sizes -/

namespace MainRs

theorem chunkEnd_lower (data : List Nat) (cs split : Nat)
    (hlt : chunkEnd data cs split < data.length) :
    split + cs ≤ chunkEnd data cs split := by
  unfold chunkEnd at hlt ⊢
  rcases hfind : (data.drop (min (split + cs) data.length)).findIdx?
      (fun b => b == 0x13) with _ | p
  · rw [hfind] at hlt
    exact absurd hlt (lt_irrefl data.length)
  · show split + cs ≤ min (split + cs) data.length + p + 1
    have hmin_le : min (split + cs) data.length ≤ data.length := Nat.min_le_right _ _
    have hmin_lt : min (split + cs) data.length < data.length := by
      rcases Nat.lt_or_ge (min (split + cs) data.length) data.length with h | h
      · exact h
      · exfalso
        have heq : min (split + cs) data.length = data.length := by omega
        rw [heq, List.drop_length] at hfind
        exact Option.noConfusion hfind
    have : min (split + cs) data.length = split + cs := by
      rcases Nat.le_total (split + cs) data.length with h | h
      · exact Nat.min_eq_left h
      · rw [Nat.min_eq_right h] at hmin_lt
        omega
    omega

theorem splitChunksAux_ne_nil_imp (data : List Nat) (cs : Nat) (fuel split : Nat)
    (h : splitChunksAux data cs fuel split ≠ []) : split < data.length := by
  cases fuel with
  | zero => exact absurd rfl h
  | succ n =>
    by_contra hs
    rw [splitChunksAux, if_neg hs] at h
    exact h rfl

theorem splitChunksAux_chunk_lower (data : List Nat) (cs : Nat) :
    ∀ (fuel split i : Nat), i + 1 < (splitChunksAux data cs fuel split).length →
    (split :: splitChunksAux data cs fuel split).getD i 0 + cs ≤
      (split :: splitChunksAux data cs fuel split).getD (i + 1) 0 := by
  intro fuel
  induction fuel with
  | zero =>
    intro split i h
    rw [splitChunksAux] at h
    simp at h
  | succ n ih =>
    intro split i h
    by_cases hs : split < data.length
    · rw [splitChunksAux, if_pos hs] at h ⊢
      cases i with
      | zero =>
        simp only [List.getD_cons_zero, List.getD_cons_succ]
        have hne : splitChunksAux data cs n (chunkEnd data cs split) ≠ [] := by
          intro hnil
          rw [hnil] at h
          simp at h
        have hlt : chunkEnd data cs split < data.length :=
          splitChunksAux_ne_nil_imp data cs n _ hne
        exact chunkEnd_lower data cs split hlt
      | succ j =>
        simp only [List.getD_cons_succ]
        exact ih (chunkEnd data cs split) j (by simpa using Nat.lt_of_succ_lt_succ h)
    · rw [splitChunksAux, if_neg hs] at h
      simp at h

end MainRs

/-! ### C4: trainer vocabulary budget -/

namespace MainRs

theorem TokenSet.addToken_push_of_none (ts : TokenSet) (s : ByteStr) (lit : Bool)
    (hm : mapGet ts.tokens_by_string s = none) :
    ts.addToken s lit =
      { tokens := ts.tokens ++ [⟨s, lit, none⟩],
        tokens_by_string := mapInsert ts.tokens_by_string s ts.tokens.length,
        literal_cost := ts.literal_cost,
        ntokens := ts.ntokens + 1 } := by
  unfold TokenSet.addToken
  rw [hm]
  rfl

theorem TokenSet.addToken_push_of_literal (ts : TokenSet) (s : ByteStr) (lit : Bool)
    (e : Nat) (hm : mapGet ts.tokens_by_string s = some e)
    (hl : (ts.tokens.getD e dTok).is_literal = true) :
    ts.addToken s lit =
      { tokens := ts.tokens ++ [⟨s, lit, none⟩],
        tokens_by_string := mapInsert ts.tokens_by_string s ts.tokens.length,
        literal_cost := ts.literal_cost,
        ntokens := ts.ntokens + 1 } := by
  unfold TokenSet.addToken
  rw [hm]
  dsimp only
  rw [hl]
  rfl

theorem TokenSet.addToken_skip (ts : TokenSet) (s : ByteStr) (lit : Bool)
    (e : Nat) (hm : mapGet ts.tokens_by_string s = some e)
    (hl : (ts.tokens.getD e dTok).is_literal = false) :
    ts.addToken s lit = ts := by
  unfold TokenSet.addToken
  rw [hm]
  dsimp only
  rw [hl]
  rfl

theorem TokenSet.addToken_ntokens_le (ts : TokenSet) (s : ByteStr) (lit : Bool) :
    (ts.addToken s lit).ntokens ≤ ts.ntokens + 1 := by
  cases hm : mapGet ts.tokens_by_string s with
  | none => rw [ts.addToken_push_of_none s lit hm]
  | some e =>
    by_cases hl : (ts.tokens.getD e dTok).is_literal
    · rw [ts.addToken_push_of_literal s lit e hm hl]
    · rw [ts.addToken_skip s lit e hm (by simpa using hl)]
      omega

theorem TokenSet.addToken_sync (ts : TokenSet) (s : ByteStr) (lit : Bool)
    (h : ts.ntokens = ts.tokens.length) :
    (ts.addToken s lit).ntokens = (ts.addToken s lit).tokens.length := by
  cases hm : mapGet ts.tokens_by_string s with
  | none =>
    rw [ts.addToken_push_of_none s lit hm]
    simp [h]
  | some e =>
    by_cases hl : (ts.tokens.getD e dTok).is_literal
    · rw [ts.addToken_push_of_literal s lit e hm hl]
      simp [h]
    · rw [ts.addToken_skip s lit e hm (by simpa using hl)]
      exact h

theorem optimizeBpe_ntokens_le (scan : TokenSet → TokenStats) (n : Nat) :
    ∀ (fuel : Nat) (ts : TokenSet), ts.ntokens = ts.tokens.length →
      ts.ntokens ≤ 256 + n →
      (optimizeBpe scan ts n fuel).tokens.length ≤ 256 + n := by
  intro fuel
  induction fuel with
  | zero =>
    intro ts hsync hle
    rw [optimizeBpe]
    omega
  | succ m ih =>
    intro ts hsync hle
    rw [optimizeBpe]
    by_cases hc : ts.ntokens < 256 + n
    · rw [if_pos hc]
      apply ih
      · exact ts.addToken_sync _ false hsync
      · have := ts.addToken_ntokens_le (epochNewTokenStr ts (scan ts)) false
        omega
    · rw [if_neg hc]
      omega

end MainRs

/-! ### C3: epoch candidate selection -/

namespace MainRs

theorem listMax_ge (l : List Nat) : ∀ x ∈ l, x ≤ listMax l := by
  induction l with
  | nil => intro x hx; exact absurd hx (List.not_mem_nil x)
  | cons a t ih =>
    intro x hx
    rcases List.mem_cons.1 hx with rfl | hx'
    · exact Nat.le_max_left _ _ |>.trans (le_of_eq rfl)
    · exact (ih x hx').trans (Nat.le_max_right _ _)

theorem foldr_max_init (l : List Nat) (x : Nat) :
    l.foldr max x = max (l.foldr max 0) x := by
  induction l with
  | nil => simp
  | cons a t ih =>
    simp only [List.foldr_cons, ih]
    exact (Nat.max_assoc _ _ _).symm

theorem listMax_append_singleton (l : List Nat) (x : Nat) :
    listMax (l ++ [x]) = max (listMax l) x := by
  unfold listMax
  rw [List.foldr_append]
  simp only [List.foldr_cons, List.foldr_nil]
  rw [foldr_max_init]
  simp

theorem topCountLoop_spec (counts : List Nat) :
    ∀ bound,
      (topCountLoop counts bound).2 =
        listMax ((List.range bound).map (fun i => counts.getD i 0)) ∧
      (topCountLoop counts bound = (0, 0) ∨
        ((topCountLoop counts bound).1 < bound ∧
         counts.getD (topCountLoop counts bound).1 0 = (topCountLoop counts bound).2)) := by
  intro bound
  induction bound with
  | zero => exact ⟨rfl, Or.inl rfl⟩
  | succ n ih =>
    have hstep : topCountLoop counts (n + 1) =
        (if counts.getD n 0 > (topCountLoop counts n).2
         then (n, counts.getD n 0) else topCountLoop counts n) := by
      unfold topCountLoop
      rw [List.range_succ, List.foldl_append, List.foldl_cons, List.foldl_nil]
    have hmax : listMax ((List.range (n + 1)).map (fun i => counts.getD i 0)) =
        max (listMax ((List.range n).map (fun i => counts.getD i 0))) (counts.getD n 0) := by
      rw [List.range_succ, List.map_append]
      simp only [List.map_cons, List.map_nil]
      exact listMax_append_singleton _ _
    rcases ih with ⟨ih1, ih2⟩
    by_cases hgt : counts.getD n 0 > (topCountLoop counts n).2
    · rw [hstep, if_pos hgt, hmax]
      constructor
      · simp only []
        omega
      · right
        exact ⟨Nat.lt_succ_self n, rfl⟩
    · rw [hstep, if_neg hgt, hmax]
      constructor
      · omega
      · rcases ih2 with h0 | ⟨hlt, hat⟩
        · exact Or.inl h0
        · exact Or.inr ⟨Nat.lt_succ_of_lt hlt, hat⟩

theorem take_eq_rangeMap_getD (l : List Nat) (n : Nat) (h : n ≤ l.length) :
    (List.range n).map (fun i => l.getD i 0) = l.take n := by
  apply List.ext_getElem (by simp; omega)
  intro i h1 h2
  simp only [List.getElem_map, List.getElem_range, List.getElem_take]
  rw [List.getD_eq_getElem _ _ (by simp at h1 ⊢; omega)]

theorem rangeMap_getD_self (l : List Nat) :
    (List.range l.length).map (fun i => l.getD i 0) = l := by
  rw [take_eq_rangeMap_getD l l.length le_rfl, List.take_length]

end MainRs

/-! ### The literal-block token set is well-formed -/

namespace MainRs

theorem tsLit_tokens_getD (b : Nat) (hb : b < 256) :
    tsLit.tokens.getD b dTok = ⟨[b], true, none⟩ := by
  show tsLitTokens.getD b dTok = _
  unfold tsLitTokens
  rw [List.getD_eq_getElem _ _ (by simpa using hb)]
  simp

theorem tsLit_tokens_length : tsLit.tokens.length = 256 := by
  show tsLitTokens.length = 256
  unfold tsLitTokens
  simp

theorem WF_tsLit : WF tsLit := by
  refine ⟨by rw [tsLit_tokens_length], tsLit_tokens_getD, ?_, ?_, ?_, ?_, ?_⟩
  · intro i hi h256
    rw [tsLit_tokens_length] at hi
    exact absurd h256 (by omega)
  · intro i hi b hb
    rw [tsLit_tokens_length] at hi
    rw [tsLit_tokens_getD i hi] at hb
    simp at hb
    omega
  · intro i hi j hj h256 hij
    rw [tsLit_tokens_length] at hi
    exact absurd h256 (by omega)
  · have h1 : tsLit.tokens_by_string = canonOf (tsLitTokens.map Token.string) := rfl
    have h2 : tsLit.tokens = tsLitTokens := rfl
    rw [h1, h2]
  · show 1 ≤ 8
    omega

end MainRs

/-! ### src/tokens.rs case lemmas -/

namespace TokensRs

theorem TokenSet.addToken_absent (ts : TokenSet) (s : ByteStr)
    (hm : mapGet ts.tokens_by_string s = none) :
    ts.addToken s = some
      { ts with
        tokens := ts.tokens ++ [Token.new s false false 1],
        tokens_by_string := mapInsert ts.tokens_by_string s ts.tokens.length } := by
  unfold TokenSet.addToken
  rw [hm]

theorem TokenSet.addToken_literal (ts : TokenSet) (s : ByteStr) (e : Nat)
    (hm : mapGet ts.tokens_by_string s = some e)
    (hl : (ts.tokens.getD e dTok).is_literal = true) :
    ts.addToken s = some
      { ts with
        tokens := ts.tokens ++ [Token.new s false false 1],
        tokens_by_string := mapInsert ts.tokens_by_string s ts.tokens.length } := by
  unfold TokenSet.addToken
  rw [hm]
  dsimp only
  rw [hl]
  rfl

theorem TokenSet.addToken_mandatory (ts : TokenSet) (s : ByteStr) (e : Nat)
    (hm : mapGet ts.tokens_by_string s = some e)
    (hl : (ts.tokens.getD e dTok).is_literal = false)
    (hmand : (ts.tokens.getD e dTok).is_mandatory = true) :
    ts.addToken s = some ts := by
  unfold TokenSet.addToken
  rw [hm]
  dsimp only
  rw [hl, hmand]
  rfl

theorem TokenSet.addToken_optional (ts : TokenSet) (s : ByteStr) (e : Nat)
    (hm : mapGet ts.tokens_by_string s = some e)
    (hl : (ts.tokens.getD e dTok).is_literal = false)
    (hmand : (ts.tokens.getD e dTok).is_mandatory = false) :
    ts.addToken s = none := by
  unfold TokenSet.addToken
  rw [hm]
  dsimp only
  rw [hl, hmand]
  rfl

theorem TokenSet.removeToken_absent (ts : TokenSet) (s : ByteStr)
    (hm : mapGet ts.tokens_by_string s = none) :
    ts.removeToken s = none := by
  unfold TokenSet.removeToken
  rw [hm]

theorem TokenSet.removeToken_lt256 (ts : TokenSet) (s : ByteStr) (id : Nat)
    (hm : mapGet ts.tokens_by_string s = some id) (hid : id < 256) :
    ts.removeToken s = none := by
  unfold TokenSet.removeToken
  rw [hm]
  dsimp only
  rw [if_pos hid]

theorem TokenSet.removeToken_literal (ts : TokenSet) (s : ByteStr) (id : Nat)
    (hm : mapGet ts.tokens_by_string s = some id) (hid : ¬ id < 256)
    (hl : (ts.tokens.getD id dTok).is_literal = true) :
    ts.removeToken s = none := by
  unfold TokenSet.removeToken
  rw [hm]
  dsimp only
  rw [if_neg hid, hl]
  rfl

theorem TokenSet.removeToken_mandatory (ts : TokenSet) (s : ByteStr) (id : Nat)
    (hm : mapGet ts.tokens_by_string s = some id) (hid : ¬ id < 256)
    (hl : (ts.tokens.getD id dTok).is_literal = false)
    (hmand : (ts.tokens.getD id dTok).is_mandatory = true) :
    ts.removeToken s = none := by
  unfold TokenSet.removeToken
  rw [hm]
  dsimp only
  rw [if_neg hid, hl, hmand]
  rfl

theorem TokenSet.removeToken_success (ts : TokenSet) (s : ByteStr) (id : Nat)
    (hm : mapGet ts.tokens_by_string s = some id) (hid : ¬ id < 256)
    (hl : (ts.tokens.getD id dTok).is_literal = false)
    (hmand : (ts.tokens.getD id dTok).is_mandatory = false) :
    ts.removeToken s = some
      { ts with
        tokens := ts.tokens.eraseIdx id,
        tokens_by_string := canonOf ((ts.tokens.eraseIdx id).map Token.string) } := by
  unfold TokenSet.removeToken
  rw [hm]
  dsimp only
  rw [if_neg hid, hl, hmand]
  rfl

end TokensRs

/-! ### eraseIdx index lemmas -/

theorem getD_eraseIdx_lt {α : Type} (l : List α) (d : α) :
    ∀ (i j : Nat), j < i → (l.eraseIdx i).getD j d = l.getD j d := by
  induction l with
  | nil => intro i j hj; simp [List.eraseIdx]
  | cons a t ih =>
    intro i j hj
    cases i with
    | zero => omega
    | succ n =>
      rw [List.eraseIdx_cons_succ]
      cases j with
      | zero => rfl
      | succ m =>
        rw [List.getD_cons_succ, List.getD_cons_succ]
        exact ih n m (by omega)

theorem getD_eraseIdx_ge {α : Type} (l : List α) (d : α) :
    ∀ (i j : Nat), i ≤ j → (l.eraseIdx i).getD j d = l.getD (j + 1) d := by
  induction l with
  | nil => intro i j hj; simp [List.eraseIdx]
  | cons a t ih =>
    intro i j hj
    cases i with
    | zero =>
      rw [List.eraseIdx_cons_zero, List.getD_cons_succ]
    | succ n =>
      rw [List.eraseIdx_cons_succ]
      cases j with
      | zero => omega
      | succ m =>
        rw [List.getD_cons_succ, List.getD_cons_succ]
        exact ih n m (by omega)

theorem mem_eraseIdx_of_ne_getD {α : Type} (l : List α) (d : α) :
    ∀ (i : Nat) (x : α), x ∈ l → x ≠ l.getD i d → x ∈ l.eraseIdx i := by
  induction l with
  | nil => intro i x hx; exact absurd hx (List.not_mem_nil x)
  | cons a t ih =>
    intro i x hx hne
    cases i with
    | zero =>
      rw [List.eraseIdx_cons_zero]
      rcases List.mem_cons.1 hx with rfl | hx'
      · exact absurd rfl hne
      · exact hx'
    | succ n =>
      rw [List.eraseIdx_cons_succ]
      rcases List.mem_cons.1 hx with rfl | hx'
      · exact List.mem_cons_self x _
      · exact List.mem_cons_of_mem a (ih n x hx' hne)

theorem length_eraseIdx_ge {α : Type} (l : List α) (i : Nat) :
    l.length - 1 ≤ (l.eraseIdx i).length := by
  rcases Nat.lt_or_ge i l.length with h | h
  · rw [List.length_eraseIdx_of_lt h]
  · rw [List.eraseIdx_of_length_le h]
    omega

namespace TokensRs

theorem getD_map_string (l : List Token) (i : Nat) :
    (l.map Token.string).getD i [] = (l.getD i dTok).string := by
  rcases Nat.lt_or_ge i l.length with h | h
  · rw [List.getD_eq_getElem _ _ (by simpa using h), List.getD_eq_getElem _ _ h,
      List.getElem_map]
  · rw [getD_default_of_le _ _ _ (by simpa using h), getD_default_of_le _ _ _ h]
    rfl

theorem addTokenD_cases (ts : TokenSet) (s : ByteStr) :
    (ts.addToken s).getD ts = ts ∨
    (ts.addToken s).getD ts =
      { ts with
        tokens := ts.tokens ++ [Token.new s false false 1],
        tokens_by_string := mapInsert ts.tokens_by_string s ts.tokens.length } := by
  cases hm : mapGet ts.tokens_by_string s with
  | none =>
    right
    rw [ts.addToken_absent s hm]
    rfl
  | some e =>
    by_cases hl : (ts.tokens.getD e dTok).is_literal
    · right
      rw [ts.addToken_literal s e hm hl]
      rfl
    · by_cases hmand : (ts.tokens.getD e dTok).is_mandatory
      · left
        rw [ts.addToken_mandatory s e hm (by simpa using hl) hmand]
        rfl
      · left
        rw [ts.addToken_optional s e hm (by simpa using hl) (by simpa using hmand)]
        rfl

theorem removeTokenD_cases (ts : TokenSet) (s : ByteStr) :
    (ts.removeToken s).getD ts = ts ∨
    ∃ id, 256 ≤ id ∧ (ts.tokens.getD id dTok).is_mandatory = false ∧
      (ts.removeToken s).getD ts =
        { ts with
          tokens := ts.tokens.eraseIdx id,
          tokens_by_string := canonOf ((ts.tokens.eraseIdx id).map Token.string) } := by
  cases hm : mapGet ts.tokens_by_string s with
  | none =>
    left
    rw [ts.removeToken_absent s hm]
    rfl
  | some id =>
    by_cases h256 : id < 256
    · left
      rw [ts.removeToken_lt256 s id hm h256]
      rfl
    · by_cases hl : (ts.tokens.getD id dTok).is_literal
      · left
        rw [ts.removeToken_literal s id hm h256 hl]
        rfl
      · by_cases hmand : (ts.tokens.getD id dTok).is_mandatory
        · left
          rw [ts.removeToken_mandatory s id hm h256 (by simpa using hl) hmand]
          rfl
        · right
          refine ⟨id, by omega, by simpa using hmand, ?_⟩
          rw [ts.removeToken_success s id hm h256 (by simpa using hl)
            (by simpa using hmand)]
          rfl

theorem applyOp_first256 (ts : TokenSet) (op : ByteStr ⊕ ByteStr)
    (hlen : 256 ≤ ts.tokens.length) :
    256 ≤ (applyOp ts op).tokens.length ∧
    (∀ b, b < 256 → (applyOp ts op).tokens.getD b dTok = ts.tokens.getD b dTok) ∧
    (∀ t ∈ ts.tokens, t.is_mandatory = true → t ∈ (applyOp ts op).tokens) := by
  cases op with
  | inl s =>
    have ha : applyOp ts (Sum.inl s) = (ts.addToken s).getD ts := rfl
    rw [ha]
    rcases addTokenD_cases ts s with h | h <;> rw [h]
    · exact ⟨hlen, fun b hb => rfl, fun t ht _ => ht⟩
    · refine ⟨by simp; omega, ?_, ?_⟩
      · intro b hb
        show (ts.tokens ++ [Token.new s false false 1]).getD b dTok = _
        exact getD_append_lt _ _ _ _ (by omega)
      · intro t ht htm
        exact List.mem_append.2 (Or.inl ht)
  | inr s =>
    have ha : applyOp ts (Sum.inr s) = (ts.removeToken s).getD ts := rfl
    rw [ha]
    rcases removeTokenD_cases ts s with h | ⟨id, hid, hmand, h⟩ <;> rw [h]
    · exact ⟨hlen, fun b hb => rfl, fun t ht _ => ht⟩
    · refine ⟨?_, ?_, ?_⟩
      · show 256 ≤ (ts.tokens.eraseIdx id).length
        rcases Nat.lt_or_ge id ts.tokens.length with hlt | hge
        · rw [List.length_eraseIdx_of_lt hlt]
          omega
        · rw [List.eraseIdx_of_length_le hge]
          exact hlen
      · intro b hb
        show (ts.tokens.eraseIdx id).getD b dTok = _
        exact getD_eraseIdx_lt _ _ id b (by omega)
      · intro t ht htm
        apply mem_eraseIdx_of_ne_getD ts.tokens dTok id t ht
        intro heq
        rw [heq, hmand] at htm
        exact Bool.noConfusion htm

theorem applyOps_invariant (ops : List (ByteStr ⊕ ByteStr)) :
    ∀ ts : TokenSet, 256 ≤ ts.tokens.length →
      256 ≤ (applyOps ts ops).tokens.length ∧
      (∀ b, b < 256 → (applyOps ts ops).tokens.getD b dTok = ts.tokens.getD b dTok) ∧
      (∀ t ∈ ts.tokens, t.is_mandatory = true → t ∈ (applyOps ts ops).tokens) := by
  induction ops with
  | nil => intro ts h; exact ⟨h, fun b hb => rfl, fun t ht _ => ht⟩
  | cons op rest ih =>
    intro ts h
    have hstep : applyOps ts (op :: rest) = applyOps (applyOp ts op) rest := rfl
    have h1 := applyOp_first256 ts op h
    have h2 := ih (applyOp ts op) h1.1
    rw [hstep]
    refine ⟨h2.1, ?_, ?_⟩
    · intro b hb
      rw [h2.2.1 b hb, h1.2.1 b hb]
    · intro t ht htm
      exact h2.2.2 t (h1.2.2 t ht htm) htm

end TokensRs

namespace MainRs

theorem getD_map_string_main (l : List Token) (i : Nat) :
    (l.map Token.string).getD i [] = (l.getD i dTok).string := by
  rcases Nat.lt_or_ge i l.length with h | h
  · rw [List.getD_eq_getElem _ _ (by simpa using h), List.getD_eq_getElem _ _ h,
      List.getElem_map]
  · rw [getD_default_of_le _ _ _ (by simpa using h), getD_default_of_le _ _ _ h]
    rfl

end MainRs

namespace MainRs

/-- Small concrete statistics used to instantiate the `TokenStats` laws. -/
def statsA : TokenStats := ⟨[1], [2], 3, 4⟩

def statsB : TokenStats := ⟨[5], [6], 7, 8⟩

def statsC : TokenStats := ⟨[9], [10], 11, 12⟩

end MainRs

/-! ## Claim theorems -/

/-- C10: for every `Tokenizer` state and every byte slice `B`,
`process_slice(B)` leaves the tokenizer in exactly the same state (same
`current_state` and the same `cost_array` contents) as calling
`process_byte(b)` once for each byte `b` of `B` in order. -/
theorem process_slice_eq_process_bytes (tk : MainRs.Tokenizer) (bytes : List Nat) :
    tk.processSlice bytes = bytes.foldl MainRs.Tokenizer.processByte tk :=
  processSliceAux_eq_foldl bytes tk

/-- C9: `TokenStats` addition is commutative and associative: for stats
built for the same `TokenSet` size (element counts equal), adding `b` then
`c` to `a` yields the same `token_count`, `pair_count`, `cost` and
`scanned_bytes` regardless of order and grouping. -/
theorem token_stats_add_comm_assoc (a b c : MainRs.TokenStats)
    (htab : a.token_count.length = b.token_count.length)
    (htac : a.token_count.length = c.token_count.length)
    (hpab : a.pair_count.length = b.pair_count.length)
    (hpac : a.pair_count.length = c.pair_count.length) :
    a.add b = b.add a ∧
    (a.add b).add c = a.add (b.add c) ∧
    (a.add b).add c = (a.add c).add b := by
  have hcomm : ∀ x y : MainRs.TokenStats, x.token_count.length = y.token_count.length →
      x.pair_count.length = y.pair_count.length → x.add y = y.add x := by
    intro x y h1 h2
    rw [MainRs.TokenStats.add_eq, MainRs.TokenStats.add_eq]
    simp only [MainRs.TokenStats.mk.injEq]
    exact ⟨MainRs.addVec_comm _ _ h1, MainRs.addVec_comm _ _ h2,
      Nat.add_comm _ _, Nat.add_comm _ _⟩
  have hassoc : ∀ x y z : MainRs.TokenStats, x.token_count.length = y.token_count.length →
      x.pair_count.length = y.pair_count.length → (x.add y).add z = x.add (y.add z) := by
    intro x y z h1 h2
    rw [MainRs.TokenStats.add_eq, MainRs.TokenStats.add_eq, MainRs.TokenStats.add_eq,
      MainRs.TokenStats.add_eq]
    simp only [MainRs.TokenStats.mk.injEq]
    exact ⟨MainRs.addVec_assoc _ _ _ h1, MainRs.addVec_assoc _ _ _ h2,
      Nat.add_assoc _ _ _, Nat.add_assoc _ _ _⟩
  refine ⟨hcomm a b htab hpab, hassoc a b c htab hpab, ?_⟩
  rw [hassoc a b c htab hpab, hassoc a c b htac hpac]
  have hbc : b.add c = c.add b :=
    hcomm b c (by omega) (by omega)
  rw [hbc]

theorem token_stats_add_comm_assoc_witness :
    (MainRs.statsA.token_count.length = MainRs.statsB.token_count.length) ∧
    (MainRs.statsA.add MainRs.statsB = MainRs.statsB.add MainRs.statsA ∧
      (MainRs.statsA.add MainRs.statsB).add MainRs.statsC =
        MainRs.statsA.add (MainRs.statsB.add MainRs.statsC) ∧
      (MainRs.statsA.add MainRs.statsB).add MainRs.statsC =
        (MainRs.statsA.add MainRs.statsC).add MainRs.statsB) :=
  ⟨by decide,
   token_stats_add_comm_assoc MainRs.statsA MainRs.statsB MainRs.statsC
     (by decide) (by decide) (by decide) (by decide)⟩

/-- C8 counterexample: the claim says the splitter produces fixed-size
chunks of 16 MiB.  In the code `CHUNK_SIZE` is 32 MiB, and the splitter
extends each chunk to just past the next 0x13 byte, so chunks are not of
the configured size either: with `chunk_size = 1`, the data
`[0, 0, 0x13, 0]` is split at `[0, 3, 4]` and its first (non-last) chunk
has length 3, not 1. -/
theorem chunk_size_counterexample :
    MainRs.CHUNK_SIZE ≠ 16777216 ∧
    MainRs.splitIntoChunks [0, 0, 0x13, 0] 1 = [0, 3, 4] ∧
    (MainRs.splitIntoChunks [0, 0, 0x13, 0] 1).getD 1 0 -
      (MainRs.splitIntoChunks [0, 0, 0x13, 0] 1).getD 0 0 ≠ 1 := by
  refine ⟨by decide, by decide, by decide⟩

/-- C8 (amended): `CHUNK_SIZE` is 32 MiB (33554432 bytes), and every chunk
produced by the splitter, except possibly the last, has length at least the
configured chunk size (each chunk is the configured size extended to just
past the next 0x13 byte). -/
theorem chunks_at_least_chunk_size (data : List Nat) (chunk_size i : Nat)
    (h : i + 2 < (MainRs.splitIntoChunks data chunk_size).length) :
    MainRs.CHUNK_SIZE = 33554432 ∧
    (MainRs.splitIntoChunks data chunk_size).getD i 0 + chunk_size ≤
      (MainRs.splitIntoChunks data chunk_size).getD (i + 1) 0 := by
  refine ⟨by norm_num [MainRs.CHUNK_SIZE], ?_⟩
  unfold MainRs.splitIntoChunks at h ⊢
  exact MainRs.splitChunksAux_chunk_lower data chunk_size (data.length + 1) 0 i
    (by simp only [List.length_cons] at h; omega)

theorem chunks_at_least_chunk_size_witness :
    (0 + 2 < (MainRs.splitIntoChunks [0, 0, 0x13, 0] 1).length) ∧
    (MainRs.CHUNK_SIZE = 33554432 ∧
      (MainRs.splitIntoChunks [0, 0, 0x13, 0] 1).getD 0 0 + 1 ≤
        (MainRs.splitIntoChunks [0, 0, 0x13, 0] 1).getD 1 0) :=
  ⟨by decide, chunks_at_least_chunk_size [0, 0, 0x13, 0] 1 0 (by decide)⟩

/-- C4 counterexample: `optimize_bpe` never removes tokens, so a starting
`TokenSet` that is already over the budget is returned unchanged: starting
from the 258-token set `tsC7` with target `ntokens = 0`, the loop condition
`ntokens < 256 + 0` is false at entry and the returned set keeps its 258
tokens, exceeding `256 + ntokens = 256`. -/
theorem optimize_bpe_budget_counterexample :
    (MainRs.optimizeBpe (fun _ => MainRs.TokenStats.mk [] [] 0 0)
      MainRs.tsC7 0 1).tokens.length = 258 ∧
    ¬ ((MainRs.optimizeBpe (fun _ => MainRs.TokenStats.mk [] [] 0 0)
      MainRs.tsC7 0 1).tokens.length ≤ 256 + 0) := by
  refine ⟨by decide, by decide⟩

/-- C4 (amended): whenever the starting `TokenSet` has at most
`256 + ntokens` tokens (with its `ntokens` field in sync with the token
list), the `TokenSet` returned by any (fuel-bounded) run of `optimize_bpe`
contains at most `256 + ntokens` tokens. -/
theorem optimize_bpe_budget_of_start_le (scan : MainRs.TokenSet → MainRs.TokenStats)
    (ts : MainRs.TokenSet) (ntokens fuel : Nat)
    (hsync : ts.ntokens = ts.tokens.length)
    (hstart : ts.tokens.length ≤ 256 + ntokens) :
    (MainRs.optimizeBpe scan ts ntokens fuel).tokens.length ≤ 256 + ntokens :=
  MainRs.optimizeBpe_ntokens_le scan ntokens fuel ts hsync (by omega)

theorem optimize_bpe_budget_of_start_le_witness :
    (MainRs.tsLit.ntokens = MainRs.tsLit.tokens.length ∧
      MainRs.tsLit.tokens.length ≤ 256 + 2) ∧
    (MainRs.optimizeBpe (fun _ => MainRs.TokenStats.mk [] [] 0 0)
      MainRs.tsLit 2 1).tokens.length ≤ 256 + 2 :=
  ⟨⟨by decide, by decide⟩,
   optimize_bpe_budget_of_start_le (fun _ => MainRs.TokenStats.mk [] [] 0 0)
     MainRs.tsLit 2 1 (by decide) (by decide)⟩

namespace MainRs

theorem epochNewTokenStr_pos (ts : TokenSet) (stats : TokenStats)
    (h : (topCountLoop stats.token_count 256).2 >
      (topCountLoop stats.pair_count stats.pair_count.length).2) :
    epochNewTokenStr ts stats = [(topCountLoop stats.token_count 256).1] := by
  unfold epochNewTokenStr
  dsimp only
  rw [if_pos h]

theorem epochNewTokenStr_neg (ts : TokenSet) (stats : TokenStats)
    (h : ¬ (topCountLoop stats.token_count 256).2 >
      (topCountLoop stats.pair_count stats.pair_count.length).2) :
    epochNewTokenStr ts stats =
      (ts.tokens.getD ((topCountLoop stats.pair_count stats.pair_count.length).1 /
        ts.ntokens) dTok).string ++
      (ts.tokens.getD ((topCountLoop stats.pair_count stats.pair_count.length).1 %
        ts.ntokens) dTok).string := by
  unfold epochNewTokenStr
  dsimp only
  rw [if_neg h]

/-- Statistics used to instantiate the epoch-decision theorem: literal 97
was counted 5 times, no pair was seen. -/
def statsW : TokenStats := ⟨(List.replicate 256 0).set 97 5, List.replicate 65536 0, 0, 0⟩

end MainRs

/-- C3: in each epoch of `optimize_bpe`, with `top_literal_count` the maximum
of `token_count` over the 256 literal indices and `top_pair_count` the
maximum over all `pair_count` buckets, the token added is a single byte
attaining the literal maximum when `top_literal_count > top_pair_count`, and
otherwise the concatenation `tokens[top_pair / N].string ++
tokens[top_pair % N].string` for a bucket `top_pair` attaining the pair
maximum, where `N` is the current number of tokens. -/
theorem epoch_candidate_choice (ts : MainRs.TokenSet) (stats : MainRs.TokenStats)
    (htc : 256 ≤ stats.token_count.length)
    (hpc : stats.pair_count.length = ts.ntokens * ts.ntokens)
    (hnt : 256 ≤ ts.ntokens) :
    (MainRs.listMax (stats.token_count.take 256) > MainRs.listMax stats.pair_count →
      ∃ b, b < 256 ∧
        stats.token_count.getD b 0 = MainRs.listMax (stats.token_count.take 256) ∧
        MainRs.epochNewTokenStr ts stats = [b]) ∧
    (¬ MainRs.listMax (stats.token_count.take 256) > MainRs.listMax stats.pair_count →
      ∃ p, p < stats.pair_count.length ∧
        stats.pair_count.getD p 0 = MainRs.listMax stats.pair_count ∧
        MainRs.epochNewTokenStr ts stats =
          (ts.tokens.getD (p / ts.ntokens) MainRs.dTok).string ++
          (ts.tokens.getD (p % ts.ntokens) MainRs.dTok).string) := by
  have hlit := MainRs.topCountLoop_spec stats.token_count 256
  have hpair := MainRs.topCountLoop_spec stats.pair_count stats.pair_count.length
  have hlit2 : (MainRs.topCountLoop stats.token_count 256).2 =
      MainRs.listMax (stats.token_count.take 256) := by
    rw [hlit.1, MainRs.take_eq_rangeMap_getD _ _ htc]
  have hpair2 : (MainRs.topCountLoop stats.pair_count stats.pair_count.length).2 =
      MainRs.listMax stats.pair_count := by
    rw [hpair.1, MainRs.rangeMap_getD_self]
  have hpclen : 0 < stats.pair_count.length := by
    rw [hpc]
    have : 256 * 256 ≤ ts.ntokens * ts.ntokens := Nat.mul_le_mul hnt hnt
    omega
  constructor
  · intro hgt
    have hcond : (MainRs.topCountLoop stats.token_count 256).2 >
        (MainRs.topCountLoop stats.pair_count stats.pair_count.length).2 := by
      rw [hlit2, hpair2]
      exact hgt
    refine ⟨(MainRs.topCountLoop stats.token_count 256).1, ?_, ?_,
      MainRs.epochNewTokenStr_pos ts stats hcond⟩
    · rcases hlit.2 with h0 | ⟨hlt, -⟩
      · rw [h0] at hcond
        exact absurd hcond (by omega)
      · exact hlt
    · rcases hlit.2 with h0 | ⟨-, hat⟩
      · rw [h0] at hcond
        exact absurd hcond (by omega)
      · rw [hat, hlit2]
  · intro hle
    have hcond : ¬ (MainRs.topCountLoop stats.token_count 256).2 >
        (MainRs.topCountLoop stats.pair_count stats.pair_count.length).2 := by
      rw [hlit2, hpair2]
      exact hle
    rcases hpair.2 with h0 | ⟨hlt, hat⟩
    · refine ⟨0, hpclen, ?_, ?_⟩
      · have hmp : MainRs.listMax stats.pair_count = 0 := by
          rw [← hpair2, h0]
        rw [hmp]
        have := MainRs.listMax_ge stats.pair_count (stats.pair_count.getD 0 0) (by
          rw [List.getD_eq_getElem _ _ hpclen]
          exact List.getElem_mem hpclen)
        omega
      · have := MainRs.epochNewTokenStr_neg ts stats hcond
        rw [h0] at this
        exact this
    · refine ⟨(MainRs.topCountLoop stats.pair_count stats.pair_count.length).1, hlt, ?_,
        MainRs.epochNewTokenStr_neg ts stats hcond⟩
      rw [hat, hpair2]

theorem epoch_candidate_choice_witness :
    (256 ≤ MainRs.statsW.token_count.length ∧
      MainRs.statsW.pair_count.length = MainRs.tsLit.ntokens * MainRs.tsLit.ntokens ∧
      256 ≤ MainRs.tsLit.ntokens) ∧
    ((MainRs.listMax (MainRs.statsW.token_count.take 256) >
        MainRs.listMax MainRs.statsW.pair_count →
      ∃ b, b < 256 ∧
        MainRs.statsW.token_count.getD b 0 =
          MainRs.listMax (MainRs.statsW.token_count.take 256) ∧
        MainRs.epochNewTokenStr MainRs.tsLit MainRs.statsW = [b]) ∧
    (¬ MainRs.listMax (MainRs.statsW.token_count.take 256) >
        MainRs.listMax MainRs.statsW.pair_count →
      ∃ p, p < MainRs.statsW.pair_count.length ∧
        MainRs.statsW.pair_count.getD p 0 = MainRs.listMax MainRs.statsW.pair_count ∧
        MainRs.epochNewTokenStr MainRs.tsLit MainRs.statsW =
          (MainRs.tsLit.tokens.getD (p / MainRs.tsLit.ntokens) MainRs.dTok).string ++
          (MainRs.tsLit.tokens.getD (p % MainRs.tsLit.ntokens) MainRs.dTok).string)) :=
  ⟨⟨by
      show 256 ≤ ((List.replicate 256 0).set 97 5).length
      rw [List.length_set, List.length_replicate],
    by
      show (List.replicate 65536 (0 : Nat)).length = 256 * 256
      rw [List.length_replicate],
    by
      show 256 ≤ 256
      omega⟩,
   epoch_candidate_choice MainRs.tsLit MainRs.statsW
     (by
       show 256 ≤ ((List.replicate 256 0).set 97 5).length
       rw [List.length_set, List.length_replicate])
     (by
       show (List.replicate 65536 (0 : Nat)).length = 256 * 256
       rw [List.length_replicate])
     (by
       show 256 ≤ 256
       omega)⟩

/-- C6 counterexample: in src/tokens.rs, adding the same string twice does
not make the second call a no-op: after `add_token("ab")` appends a
non-literal optional token, a second `add_token("ab")` hits the
`assert!(existing.is_literal || existing.is_mandatory)` and panics
(modelled as `none`) instead of leaving the set unchanged. -/
theorem add_token_duplicate_counterexample :
    (TokensRs.TokenSet.addToken TokensRs.tsLitM [97, 98]).isSome ∧
    (((TokensRs.TokenSet.addToken TokensRs.tsLitM [97, 98]).getD
        TokensRs.tsLitM).tokens.getD 257 TokensRs.dTok).is_literal = false ∧
    (((TokensRs.TokenSet.addToken TokensRs.tsLitM [97, 98]).getD
        TokensRs.tsLitM).tokens.getD 257 TokensRs.dTok).is_mandatory = false ∧
    TokensRs.TokenSet.addToken
      ((TokensRs.TokenSet.addToken TokensRs.tsLitM [97, 98]).getD TokensRs.tsLitM)
      [97, 98] = none := by
  refine ⟨by decide, by decide, by decide, by decide⟩

/-- C6 (amended): `add_token(s)`.  When `s` is absent a non-literal optional
token is appended; when `s` resolves to a literal a non-literal entry is
appended anyway and the reverse map repoints to it; when `s` resolves to a
mandatory token the call is a no-op.  But in src/tokens.rs, when `s`
resolves to a non-literal *optional* token the call fails an assert
(panics) rather than being a no-op; only the src/main.rs version is a
no-op for every existing non-literal. -/
theorem add_token_cases (ts : TokensRs.TokenSet) (s : ByteStr) :
    (mapGet ts.tokens_by_string s = none →
      TokensRs.TokenSet.addToken ts s = some
        { ts with
          tokens := ts.tokens ++ [TokensRs.Token.new s false false 1],
          tokens_by_string := mapInsert ts.tokens_by_string s ts.tokens.length }) ∧
    (∀ e, mapGet ts.tokens_by_string s = some e →
      ((ts.tokens.getD e TokensRs.dTok).is_literal = true →
        TokensRs.TokenSet.addToken ts s = some
          { ts with
            tokens := ts.tokens ++ [TokensRs.Token.new s false false 1],
            tokens_by_string := mapInsert ts.tokens_by_string s ts.tokens.length } ∧
        mapGet (mapInsert ts.tokens_by_string s ts.tokens.length) s =
          some ts.tokens.length ∧
        (∀ s2, s2 ≠ s → mapGet (mapInsert ts.tokens_by_string s ts.tokens.length) s2 =
          mapGet ts.tokens_by_string s2)) ∧
      ((ts.tokens.getD e TokensRs.dTok).is_literal = false →
        (ts.tokens.getD e TokensRs.dTok).is_mandatory = true →
        TokensRs.TokenSet.addToken ts s = some ts) ∧
      ((ts.tokens.getD e TokensRs.dTok).is_literal = false →
        (ts.tokens.getD e TokensRs.dTok).is_mandatory = false →
        TokensRs.TokenSet.addToken ts s = none)) ∧
    (∀ (ts2 : MainRs.TokenSet) (e : Nat) (lit : Bool),
      mapGet ts2.tokens_by_string s = some e →
      (ts2.tokens.getD e MainRs.dTok).is_literal = false →
      MainRs.TokenSet.addToken ts2 s lit = ts2) := by
  refine ⟨?_, ?_, ?_⟩
  · intro hm
    exact ts.addToken_absent s hm
  · intro e hm
    refine ⟨?_, ?_, ?_⟩
    · intro hl
      refine ⟨ts.addToken_literal s e hm hl, ?_, ?_⟩
      · rw [show mapInsert ts.tokens_by_string s ts.tokens.length =
          (s, ts.tokens.length) :: ts.tokens_by_string from rfl, mapGet_cons]
        simp
      · intro s2 hne
        rw [show mapInsert ts.tokens_by_string s ts.tokens.length =
          (s, ts.tokens.length) :: ts.tokens_by_string from rfl, mapGet_cons]
        rw [if_neg (by simpa using fun h => hne h.symm)]
    · intro hl hmand
      exact ts.addToken_mandatory s e hm hl hmand
    · intro hl hmand
      exact ts.addToken_optional s e hm hl hmand
  · intro ts2 e lit hm hl
    exact ts2.addToken_skip s lit e hm hl

theorem add_token_cases_witness :
    (mapGet TokensRs.tsLitM.tokens_by_string [97, 98] = none →
      TokensRs.TokenSet.addToken TokensRs.tsLitM [97, 98] = some
        { TokensRs.tsLitM with
          tokens := TokensRs.tsLitM.tokens ++ [TokensRs.Token.new [97, 98] false false 1],
          tokens_by_string := mapInsert TokensRs.tsLitM.tokens_by_string [97, 98]
            TokensRs.tsLitM.tokens.length }) ∧
    (∀ e, mapGet TokensRs.tsLitM.tokens_by_string [97, 98] = some e →
      ((TokensRs.tsLitM.tokens.getD e TokensRs.dTok).is_literal = true →
        TokensRs.TokenSet.addToken TokensRs.tsLitM [97, 98] = some
          { TokensRs.tsLitM with
            tokens := TokensRs.tsLitM.tokens ++
              [TokensRs.Token.new [97, 98] false false 1],
            tokens_by_string := mapInsert TokensRs.tsLitM.tokens_by_string [97, 98]
              TokensRs.tsLitM.tokens.length } ∧
        mapGet (mapInsert TokensRs.tsLitM.tokens_by_string [97, 98]
          TokensRs.tsLitM.tokens.length) [97, 98] = some TokensRs.tsLitM.tokens.length ∧
        (∀ s2, s2 ≠ [97, 98] →
          mapGet (mapInsert TokensRs.tsLitM.tokens_by_string [97, 98]
            TokensRs.tsLitM.tokens.length) s2 =
          mapGet TokensRs.tsLitM.tokens_by_string s2)) ∧
      ((TokensRs.tsLitM.tokens.getD e TokensRs.dTok).is_literal = false →
        (TokensRs.tsLitM.tokens.getD e TokensRs.dTok).is_mandatory = true →
        TokensRs.TokenSet.addToken TokensRs.tsLitM [97, 98] = some TokensRs.tsLitM) ∧
      ((TokensRs.tsLitM.tokens.getD e TokensRs.dTok).is_literal = false →
        (TokensRs.tsLitM.tokens.getD e TokensRs.dTok).is_mandatory = false →
        TokensRs.TokenSet.addToken TokensRs.tsLitM [97, 98] = none)) ∧
    (∀ (ts2 : MainRs.TokenSet) (e : Nat) (lit : Bool),
      mapGet ts2.tokens_by_string [97, 98] = some e →
      (ts2.tokens.getD e MainRs.dTok).is_literal = false →
      MainRs.TokenSet.addToken ts2 [97, 98] lit = ts2) :=
  add_token_cases TokensRs.tsLitM [97, 98]

namespace MainRs

theorem generateSuffixes_tokens_getD (ts : TokenSet) (i : Nat)
    (h : i < ts.tokens.length) :
    (ts.generateSuffixes).tokens.getD i dTok =
      (if i < 256 then ts.tokens.getD i dTok
       else
         match firstSuffixHit ts.tokens_by_string (ts.tokens.getD i dTok).string 1 with
         | some idx => { ts.tokens.getD i dTok with suffix := some idx }
         | none => ts.tokens.getD i dTok) := by
  unfold TokenSet.generateSuffixes
  dsimp only
  rw [List.getD_eq_getElem _ _ (by simpa using h), List.getElem_mapIdx,
    List.getD_eq_getElem _ _ h]

theorem generateSuffixes_length (ts : TokenSet) :
    (ts.generateSuffixes).tokens.length = ts.tokens.length := by
  unfold TokenSet.generateSuffixes
  dsimp only
  rw [List.length_mapIdx]

end MainRs

/-- C7 counterexample: `generate_suffixes` picks the *smallest* start
`k ≥ 1` that hits the reverse map (the longest suffix), not the largest.
In `tsC7` the token `"abc"` (index 257) has hits at `k = 1` (string `"bc"`,
index 256) and at `k = 2` (string `"c"`, literal index 99); the largest such
`k` is 2, so the claim predicts `suffix = some 99`, but the code sets
`suffix = some 256`. -/
theorem generate_suffixes_largest_k_counterexample :
    ((MainRs.TokenSet.generateSuffixes MainRs.tsC7).tokens.getD 257 MainRs.dTok).suffix =
      some 256 ∧
    mapGet MainRs.tsC7.tokens_by_string
      ((MainRs.tsC7.tokens.getD 257 MainRs.dTok).string.drop 1) = some 256 ∧
    mapGet MainRs.tsC7.tokens_by_string
      ((MainRs.tsC7.tokens.getD 257 MainRs.dTok).string.drop 2) = some 99 ∧
    (MainRs.tsC7.tokens.getD 257 MainRs.dTok).string.length = 3 ∧
    ¬ ((MainRs.TokenSet.generateSuffixes MainRs.tsC7).tokens.getD 257
        MainRs.dTok).suffix = some 99 := by
  refine ⟨by decide, by decide, by decide, by decide, by decide⟩

/-- C7 (amended): `generate_suffixes` sets, for every non-literal token `t`
(index `≥ 256`), `t.suffix` to the index stored in the reverse map for
`t[k..]` where `k` is the *smallest* value with `k ≥ 1` such that `t[k..]`
exists in the reverse map (i.e. the longest such suffix); when no such `k`
exists (in particular for tokens of length 1) it leaves `t.suffix`
unchanged (`None` as initialized).  Tokens of index `< 256` are untouched,
and no `string` or `is_literal` field changes. -/
theorem generate_suffixes_longest (ts : MainRs.TokenSet) (i : Nat)
    (h256 : 256 ≤ i) (hlen : i < ts.tokens.length) :
    ((∃ k idx, 1 ≤ k ∧ k < (ts.tokens.getD i MainRs.dTok).string.length ∧
        mapGet ts.tokens_by_string ((ts.tokens.getD i MainRs.dTok).string.drop k) =
          some idx ∧
        (∀ j, 1 ≤ j → j < k →
          mapGet ts.tokens_by_string ((ts.tokens.getD i MainRs.dTok).string.drop j) =
            none) ∧
        ((ts.generateSuffixes).tokens.getD i MainRs.dTok).suffix = some idx) ∨
      ((∀ k, 1 ≤ k → k < (ts.tokens.getD i MainRs.dTok).string.length →
          mapGet ts.tokens_by_string ((ts.tokens.getD i MainRs.dTok).string.drop k) =
            none) ∧
        ((ts.generateSuffixes).tokens.getD i MainRs.dTok).suffix =
          (ts.tokens.getD i MainRs.dTok).suffix)) ∧
    ((ts.tokens.getD i MainRs.dTok).string.length = 1 →
      ((ts.generateSuffixes).tokens.getD i MainRs.dTok).suffix =
        (ts.tokens.getD i MainRs.dTok).suffix) ∧
    ((ts.generateSuffixes).tokens.getD i MainRs.dTok).string =
      (ts.tokens.getD i MainRs.dTok).string ∧
    ((ts.generateSuffixes).tokens.getD i MainRs.dTok).is_literal =
      (ts.tokens.getD i MainRs.dTok).is_literal ∧
    (∀ j, j < 256 → j < ts.tokens.length →
      (ts.generateSuffixes).tokens.getD j MainRs.dTok = ts.tokens.getD j MainRs.dTok) := by
  have hg := MainRs.generateSuffixes_tokens_getD ts i hlen
  rw [if_neg (by omega)] at hg
  have hmain : (∃ k idx, 1 ≤ k ∧ k < (ts.tokens.getD i MainRs.dTok).string.length ∧
      mapGet ts.tokens_by_string ((ts.tokens.getD i MainRs.dTok).string.drop k) =
        some idx ∧
      (∀ j, 1 ≤ j → j < k →
        mapGet ts.tokens_by_string ((ts.tokens.getD i MainRs.dTok).string.drop j) =
          none) ∧
      ((ts.generateSuffixes).tokens.getD i MainRs.dTok).suffix = some idx) ∨
    ((∀ k, 1 ≤ k → k < (ts.tokens.getD i MainRs.dTok).string.length →
        mapGet ts.tokens_by_string ((ts.tokens.getD i MainRs.dTok).string.drop k) =
          none) ∧
      ((ts.generateSuffixes).tokens.getD i MainRs.dTok).suffix =
        (ts.tokens.getD i MainRs.dTok).suffix) := by
    cases hfs : firstSuffixHit ts.tokens_by_string
        (ts.tokens.getD i MainRs.dTok).string 1 with
    | some idx =>
      left
      rcases (firstSuffixHit_eq_some _ _ 1 idx).1 hfs with ⟨k, hk1, hk2, hk3, hk4⟩
      refine ⟨k, idx, hk1, hk2, hk3, hk4, ?_⟩
      rw [hg, hfs]
    | none =>
      right
      refine ⟨fun k h1 h2 => (firstSuffixHit_eq_none _ _ 1).1 hfs k h1 h2, ?_⟩
      rw [hg, hfs]
  refine ⟨hmain, ?_, ?_, ?_, ?_⟩
  · intro hone
    rcases hmain with ⟨k, idx, hk1, hk2, -, -, -⟩ | ⟨-, hunch⟩
    · omega
    · exact hunch
  · rw [hg]
    cases firstSuffixHit ts.tokens_by_string (ts.tokens.getD i MainRs.dTok).string 1 <;>
      rfl
  · rw [hg]
    cases firstSuffixHit ts.tokens_by_string (ts.tokens.getD i MainRs.dTok).string 1 <;>
      rfl
  · intro j hj hjlen
    have := MainRs.generateSuffixes_tokens_getD ts j hjlen
    rw [if_pos hj] at this
    exact this

theorem generate_suffixes_longest_witness :
    (256 ≤ 257 ∧ 257 < MainRs.tsC7.tokens.length) ∧
    (((∃ k idx, 1 ≤ k ∧ k < (MainRs.tsC7.tokens.getD 257 MainRs.dTok).string.length ∧
        mapGet MainRs.tsC7.tokens_by_string
          ((MainRs.tsC7.tokens.getD 257 MainRs.dTok).string.drop k) = some idx ∧
        (∀ j, 1 ≤ j → j < k →
          mapGet MainRs.tsC7.tokens_by_string
            ((MainRs.tsC7.tokens.getD 257 MainRs.dTok).string.drop j) = none) ∧
        ((MainRs.TokenSet.generateSuffixes MainRs.tsC7).tokens.getD 257
          MainRs.dTok).suffix = some idx) ∨
      ((∀ k, 1 ≤ k → k < (MainRs.tsC7.tokens.getD 257 MainRs.dTok).string.length →
          mapGet MainRs.tsC7.tokens_by_string
            ((MainRs.tsC7.tokens.getD 257 MainRs.dTok).string.drop k) = none) ∧
        ((MainRs.TokenSet.generateSuffixes MainRs.tsC7).tokens.getD 257
          MainRs.dTok).suffix = (MainRs.tsC7.tokens.getD 257 MainRs.dTok).suffix)) ∧
    ((MainRs.tsC7.tokens.getD 257 MainRs.dTok).string.length = 1 →
      ((MainRs.TokenSet.generateSuffixes MainRs.tsC7).tokens.getD 257
        MainRs.dTok).suffix = (MainRs.tsC7.tokens.getD 257 MainRs.dTok).suffix) ∧
    ((MainRs.TokenSet.generateSuffixes MainRs.tsC7).tokens.getD 257
      MainRs.dTok).string = (MainRs.tsC7.tokens.getD 257 MainRs.dTok).string ∧
    ((MainRs.TokenSet.generateSuffixes MainRs.tsC7).tokens.getD 257
      MainRs.dTok).is_literal = (MainRs.tsC7.tokens.getD 257 MainRs.dTok).is_literal ∧
    (∀ j, j < 256 → j < MainRs.tsC7.tokens.length →
      (MainRs.TokenSet.generateSuffixes MainRs.tsC7).tokens.getD j MainRs.dTok =
        MainRs.tsC7.tokens.getD j MainRs.dTok)) :=
  ⟨⟨by omega, by decide⟩, generate_suffixes_longest MainRs.tsC7 257 (by omega) (by decide)⟩

namespace TokensRs

theorem mapGet_canon_tokens (l : List Token) (s : ByteStr) (i : Nat) :
    mapGet (canonOf (l.map Token.string)) s = some i ↔
      (i < l.length ∧ (l.getD i dTok).string = s ∧
        ∀ j, i < j → j < l.length → (l.getD j dTok).string ≠ s) := by
  rw [mapGet_canonOf]
  constructor
  · rintro ⟨hi, hget, hmax⟩
    rw [List.length_map] at hi
    rw [getD_map_string] at hget
    refine ⟨hi, hget, ?_⟩
    intro j hj hjl
    have := hmax j hj (by simpa using hjl)
    rwa [getD_map_string] at this
  · rintro ⟨hi, hget, hmax⟩
    refine ⟨by simpa using hi, ?_, ?_⟩
    · rw [getD_map_string]
      exact hget
    · intro j hj hjl
      rw [getD_map_string]
      exact hmax j hj (by simpa using hjl)

end TokensRs

namespace MainRs

theorem mapGet_canon_tokens_main (l : List Token) (s : ByteStr) (i : Nat) :
    mapGet (canonOf (l.map Token.string)) s = some i ↔
      (i < l.length ∧ (l.getD i dTok).string = s ∧
        ∀ j, i < j → j < l.length → (l.getD j dTok).string ≠ s) := by
  rw [mapGet_canonOf]
  constructor
  · rintro ⟨hi, hget, hmax⟩
    rw [List.length_map] at hi
    rw [getD_map_string_main] at hget
    refine ⟨hi, hget, ?_⟩
    intro j hj hjl
    have := hmax j hj (by simpa using hjl)
    rwa [getD_map_string_main] at this
  · rintro ⟨hi, hget, hmax⟩
    refine ⟨by simpa using hi, ?_, ?_⟩
    · rw [getD_map_string_main]
      exact hget
    · intro j hj hjl
      rw [getD_map_string_main]
      exact hmax j hj (by simpa using hjl)

theorem mapGet_canon_tokens_none (l : List Token) (s : ByteStr) :
    mapGet (canonOf (l.map Token.string)) s = none ↔
      ∀ t ∈ l, t.string ≠ s := by
  rw [mapGet_canonOf_none]
  constructor
  · intro h t ht
    exact h t.string (List.mem_map_of_mem Token.string ht)
  · intro h x hx
    rcases List.mem_map.1 hx with ⟨t, ht, rfl⟩
    exact h t ht

end MainRs

/-- C5: `remove_token(s)` fails exactly when the token the reverse map
resolves `s` to is a literal or mandatory, or when `s` is absent; on success
exactly that one token is removed (indices above it shift down by one) and
the reverse map is rebuilt consistently with the shifted indices; and
consequently the 256 literals and all mandatory tokens remain in the set
after any sequence of `add_token` / `remove_token` operations. -/
theorem remove_token_spec (ts : TokensRs.TokenSet) (s : ByteStr)
    (hwf : TokensRs.WF ts) :
    (TokensRs.TokenSet.removeToken ts s = none ↔
      mapGet ts.tokens_by_string s = none ∨
      ∃ id, mapGet ts.tokens_by_string s = some id ∧
        ((ts.tokens.getD id TokensRs.dTok).is_literal = true ∨
         (ts.tokens.getD id TokensRs.dTok).is_mandatory = true)) ∧
    (∀ ts2, TokensRs.TokenSet.removeToken ts s = some ts2 →
      ∃ id, mapGet ts.tokens_by_string s = some id ∧ 256 ≤ id ∧
        id < ts.tokens.length ∧
        ts2.tokens = ts.tokens.eraseIdx id ∧
        ts2.tokens.length + 1 = ts.tokens.length ∧
        (∀ j, j < id → ts2.tokens.getD j TokensRs.dTok =
          ts.tokens.getD j TokensRs.dTok) ∧
        (∀ j, id ≤ j → ts2.tokens.getD j TokensRs.dTok =
          ts.tokens.getD (j + 1) TokensRs.dTok) ∧
        (∀ s2 i, mapGet ts2.tokens_by_string s2 = some i ↔
          (i < ts2.tokens.length ∧ (ts2.tokens.getD i TokensRs.dTok).string = s2 ∧
            ∀ j, i < j → j < ts2.tokens.length →
              (ts2.tokens.getD j TokensRs.dTok).string ≠ s2))) ∧
    (∀ ops, 256 ≤ (TokensRs.applyOps ts ops).tokens.length ∧
      (∀ b, b < 256 → (TokensRs.applyOps ts ops).tokens.getD b TokensRs.dTok =
        ts.tokens.getD b TokensRs.dTok) ∧
      (∀ t ∈ ts.tokens, t.is_mandatory = true →
        t ∈ (TokensRs.applyOps ts ops).tokens)) := by
  obtain ⟨hlen, hlit, hnonlit, hmap⟩ := hwf
  refine ⟨?_, ?_, ?_⟩
  · constructor
    · intro hnone
      cases hm : mapGet ts.tokens_by_string s with
      | none => exact Or.inl rfl
      | some id =>
        right
        refine ⟨id, rfl, ?_⟩
        by_cases h256 : id < 256
        · exact Or.inl (hlit id h256).2.1
        · by_cases hl : (ts.tokens.getD id TokensRs.dTok).is_literal = true
          · exact Or.inl hl
          · by_cases hmand : (ts.tokens.getD id TokensRs.dTok).is_mandatory = true
            · exact Or.inr hmand
            · exfalso
              rw [ts.removeToken_success s id hm h256 (by simpa using hl)
                (by simpa using hmand)] at hnone
              exact Option.noConfusion hnone
    · intro hrhs
      rcases hrhs with hm | ⟨id, hm, hcase⟩
      · exact ts.removeToken_absent s hm
      · by_cases h256 : id < 256
        · exact ts.removeToken_lt256 s id hm h256
        · by_cases hl : (ts.tokens.getD id TokensRs.dTok).is_literal = true
          · exact ts.removeToken_literal s id hm h256 hl
          · rcases hcase with hl2 | hmand
            · exact absurd hl2 hl
            · exact ts.removeToken_mandatory s id hm h256 (by simpa using hl) hmand
  · intro ts2 hsome
    cases hm : mapGet ts.tokens_by_string s with
    | none =>
      rw [ts.removeToken_absent s hm] at hsome
      exact Option.noConfusion hsome
    | some id =>
      by_cases h256 : id < 256
      · rw [ts.removeToken_lt256 s id hm h256] at hsome
        exact Option.noConfusion hsome
      · by_cases hl : (ts.tokens.getD id TokensRs.dTok).is_literal = true
        · rw [ts.removeToken_literal s id hm h256 hl] at hsome
          exact Option.noConfusion hsome
        · by_cases hmand : (ts.tokens.getD id TokensRs.dTok).is_mandatory = true
          · rw [ts.removeToken_mandatory s id hm h256 (by simpa using hl) hmand]
              at hsome
            exact Option.noConfusion hsome
          · rw [ts.removeToken_success s id hm h256 (by simpa using hl)
              (by simpa using hmand)] at hsome
            obtain rfl := (Option.some.inj hsome).symm
            have hid_lt : id < ts.tokens.length := by
              rw [hmap] at hm
              rcases (mapGet_canonOf _ s id).1 hm with ⟨hi, -, -⟩
              simpa using hi
            refine ⟨id, rfl, by omega, hid_lt, rfl, ?_, ?_, ?_, ?_⟩
            · show (ts.tokens.eraseIdx id).length + 1 = ts.tokens.length
              rw [List.length_eraseIdx_of_lt hid_lt]
              omega
            · intro j hj
              exact getD_eraseIdx_lt _ _ id j hj
            · intro j hj
              exact getD_eraseIdx_ge _ _ id j hj
            · intro s2 i
              exact TokensRs.mapGet_canon_tokens (ts.tokens.eraseIdx id) s2 i
  · intro ops
    exact TokensRs.applyOps_invariant ops ts hlen

theorem remove_token_spec_witness :
    TokensRs.WF TokensRs.tsLitM ∧
    ((TokensRs.TokenSet.removeToken TokensRs.tsLitM [0x10] = none ↔
      mapGet TokensRs.tsLitM.tokens_by_string [0x10] = none ∨
      ∃ id, mapGet TokensRs.tsLitM.tokens_by_string [0x10] = some id ∧
        ((TokensRs.tsLitM.tokens.getD id TokensRs.dTok).is_literal = true ∨
         (TokensRs.tsLitM.tokens.getD id TokensRs.dTok).is_mandatory = true)) ∧
    (∀ ts2, TokensRs.TokenSet.removeToken TokensRs.tsLitM [0x10] = some ts2 →
      ∃ id, mapGet TokensRs.tsLitM.tokens_by_string [0x10] = some id ∧ 256 ≤ id ∧
        id < TokensRs.tsLitM.tokens.length ∧
        ts2.tokens = TokensRs.tsLitM.tokens.eraseIdx id ∧
        ts2.tokens.length + 1 = TokensRs.tsLitM.tokens.length ∧
        (∀ j, j < id → ts2.tokens.getD j TokensRs.dTok =
          TokensRs.tsLitM.tokens.getD j TokensRs.dTok) ∧
        (∀ j, id ≤ j → ts2.tokens.getD j TokensRs.dTok =
          TokensRs.tsLitM.tokens.getD (j + 1) TokensRs.dTok) ∧
        (∀ s2 i, mapGet ts2.tokens_by_string s2 = some i ↔
          (i < ts2.tokens.length ∧ (ts2.tokens.getD i TokensRs.dTok).string = s2 ∧
            ∀ j, i < j → j < ts2.tokens.length →
              (ts2.tokens.getD j TokensRs.dTok).string ≠ s2))) ∧
    (∀ ops, 256 ≤ (TokensRs.applyOps TokensRs.tsLitM ops).tokens.length ∧
      (∀ b, b < 256 →
        (TokensRs.applyOps TokensRs.tsLitM ops).tokens.getD b TokensRs.dTok =
          TokensRs.tsLitM.tokens.getD b TokensRs.dTok) ∧
      (∀ t ∈ TokensRs.tsLitM.tokens, t.is_mandatory = true →
        t ∈ (TokensRs.applyOps TokensRs.tsLitM ops).tokens))) :=
  ⟨by decide, remove_token_spec TokensRs.tsLitM [0x10] (by decide)⟩

/-! ### Generic fold lemmas -/

theorem foldl_preserve {α β : Type} (f : β → α → β) (P : β → Prop) :
    ∀ (l : List α) (b : β), P b → (∀ b2 a, a ∈ l → P b2 → P (f b2 a)) →
      P (l.foldl f b) := by
  intro l
  induction l with
  | nil => intro b hb _; exact hb
  | cons x xs ih =>
    intro b hb hstep
    exact ih (f b x) (hstep b x (List.mem_cons_self x xs) hb)
      (fun b2 a ha => hstep b2 a (List.mem_cons_of_mem x ha))

theorem foldl_establish {α β : Type} (f : β → α → β) (R : α → β → Prop)
    (hest : ∀ b a, R a (f b a)) (hpres : ∀ b a a2, R a b → R a (f b a2)) :
    ∀ (l : List α) (b : β) (a : α), a ∈ l → R a (l.foldl f b) := by
  intro l
  induction l with
  | nil => intro b a ha; exact absurd ha (List.not_mem_nil a)
  | cons x xs ih =>
    intro b a ha
    rcases List.mem_cons.1 ha with rfl | ha'
    · exact foldl_preserve f (R a) xs (f b a) (hest b a)
        (fun b2 a2 _ h => hpres b2 a a2 h)
    · exact ih (f b x) a ha'

/-! ### Longest token-prefix suffix: basic lemmas -/

namespace MainRs

/-- Spec-side: `p` is a prefix of some token of the list (`Prop` version). -/
def IsPrefTok (tokens : List Token) (p : ByteStr) : Prop :=
  ∃ tok ∈ tokens, p <+: tok.string

theorem isPrefOfTok_iff (tokens : List Token) (p : ByteStr) :
    isPrefOfTok tokens p = true ↔ IsPrefTok tokens p := by
  unfold isPrefOfTok IsPrefTok
  rw [List.any_eq_true]
  constructor
  · rintro ⟨tok, htok, hd⟩
    exact ⟨tok, htok, of_decide_eq_true hd⟩
  · rintro ⟨tok, htok, hd⟩
    exact ⟨tok, htok, decide_eq_true hd⟩

theorem longestSufPref_suffix (tokens : List Token) :
    ∀ x : ByteStr, longestSufPref tokens x <:+ x := by
  intro x
  induction x with
  | nil => exact List.suffix_rfl
  | cons b rest ih =>
    rw [longestSufPref]
    by_cases h : isPrefOfTok tokens (b :: rest) = true
    · rw [if_pos h]
    · rw [if_neg h]
      exact ih.trans (List.suffix_cons b rest)

theorem longestSufPref_isPrefTok (tokens : List Token) :
    ∀ x : ByteStr, longestSufPref tokens x = [] ∨
      IsPrefTok tokens (longestSufPref tokens x) := by
  intro x
  induction x with
  | nil => exact Or.inl rfl
  | cons b rest ih =>
    rw [longestSufPref]
    by_cases h : isPrefOfTok tokens (b :: rest) = true
    · rw [if_pos h]
      exact Or.inr ((isPrefOfTok_iff tokens (b :: rest)).1 h)
    · rw [if_neg h]
      exact ih

theorem longestSufPref_maximal (tokens : List Token) :
    ∀ (x s : ByteStr), s <:+ x → IsPrefTok tokens s →
      s.length ≤ (longestSufPref tokens x).length := by
  intro x
  induction x with
  | nil =>
    intro s hs _
    rw [List.suffix_nil.1 hs]
    simp
  | cons b rest ih =>
    intro s hs hp
    rw [longestSufPref]
    by_cases h : isPrefOfTok tokens (b :: rest) = true
    · rw [if_pos h]
      exact hs.length_le
    · rw [if_neg h]
      have hne : s ≠ b :: rest := by
        intro heq
        rw [heq] at hp
        exact h ((isPrefOfTok_iff tokens (b :: rest)).2 hp)
      have hs' : s <:+ rest := by
        rcases hs with ⟨u, hu⟩
        cases u with
        | nil => exact absurd (by simpa using hu) hne
        | cons c cs =>
          refine ⟨cs, ?_⟩
          have := hu
          simp only [List.cons_append] at this
          exact (List.cons.inj this).2
      exact ih s hs' hp

/-- Characterization: if `T` is a non-empty token-prefix suffix of `r` of
maximal length, then it is the longest token-prefix suffix. -/
theorem longestSufPref_eq_of (tokens : List Token) :
    ∀ (r T : ByteStr), T ≠ [] → T <:+ r → IsPrefTok tokens T →
      (∀ s, s <:+ r → IsPrefTok tokens s → s.length ≤ T.length) →
      longestSufPref tokens r = T := by
  intro r
  induction r with
  | nil =>
    intro T hne hsuf _ _
    exact absurd (List.suffix_nil.1 hsuf) hne
  | cons b rest ih =>
    intro T hne hsuf hpref hmax
    rw [longestSufPref]
    by_cases h : isPrefOfTok tokens (b :: rest) = true
    · rw [if_pos h]
      have h1 : (b :: rest).length ≤ T.length :=
        hmax (b :: rest) List.suffix_rfl ((isPrefOfTok_iff tokens (b :: rest)).1 h)
      exact (List.IsSuffix.eq_of_length hsuf (le_antisymm hsuf.length_le h1)).symm ▸ rfl
    · rw [if_neg h]
      have hne2 : T ≠ b :: rest := by
        intro heq
        rw [heq] at hpref
        exact h ((isPrefOfTok_iff tokens (b :: rest)).2 hpref)
      have hsuf' : T <:+ rest := by
        rcases hsuf with ⟨u, hu⟩
        cases u with
        | nil => exact absurd (by simpa using hu) hne2
        | cons c cs =>
          refine ⟨cs, ?_⟩
          simp only [List.cons_append] at hu
          exact (List.cons.inj hu).2
      exact ih T hne hsuf' hpref
        (fun s hs hp => hmax s (hs.trans (List.suffix_cons b rest)) hp)

end MainRs

/-! ### Phase A invariants -/

theorem getD_append_self_gen {α : Type} (l : List α) (x d : α) :
    (l ++ [x]).getD l.length d = x := by
  rw [List.getD_eq_getElem _ _ (by simp)]
  simp

theorem mapGet_insert (m : List (ByteStr × Nat)) (k : ByteStr) (v : Nat)
    (q : ByteStr) :
    mapGet (mapInsert m k v) q = if k = q then some v else mapGet m q :=
  mapGet_cons _ _ _

namespace MainRs

/-- Invariant of the Phase A accumulator: state 0 is the root; every map
entry points to a state carrying exactly that string; every non-empty key
is a token prefix and its state's `token_id` was computed by the
longest-token-suffix scan. -/
def PhaseAInv (ts : TokenSet) (acc : List SuffixState × List (ByteStr × Nat)) :
    Prop :=
  1 ≤ acc.1.length ∧
  acc.1.getD 0 dSS = ⟨[], 0, List.replicate 256 0⟩ ∧
  mapGet acc.2 [] = some 0 ∧
  (∀ p v, mapGet acc.2 p = some v →
    v < acc.1.length ∧ (acc.1.getD v dSS).suffix = p) ∧
  (∀ p v, mapGet acc.2 p = some v → p ≠ [] →
    IsPrefTok ts.tokens p ∧
    (acc.1.getD v dSS).token_id = (firstSuffixHit ts.tokens_by_string p 0).getD 0)

theorem addPrefixState_inv (ts : TokenSet)
    (acc : List SuffixState × List (ByteStr × Nat)) (p : ByteStr)
    (hp : p ≠ []) (hpt : IsPrefTok ts.tokens p) (hinv : PhaseAInv ts acc) :
    PhaseAInv ts (addPrefixState ts.tokens_by_string acc p) := by
  obtain ⟨h1, h2, h3, h4, h5⟩ := hinv
  unfold addPrefixState
  by_cases hmem : (mapGet acc.2 p).isSome = true
  · rw [if_pos hmem]
    exact ⟨h1, h2, h3, h4, h5⟩
  · rw [if_neg hmem]
    dsimp only
    refine ⟨?_, ?_, ?_, ?_, ?_⟩
    · simp
    · rw [getD_append_lt _ _ _ _ (by omega)]
      exact h2
    · rw [mapGet_insert, if_neg hp]
      exact h3
    · intro q v hq
      rw [mapGet_insert] at hq
      by_cases hpq : p = q
      · rw [if_pos hpq] at hq
        obtain rfl := (Option.some.inj hq).symm
        refine ⟨by simp, ?_⟩
        rw [getD_append_self_gen]
        exact hpq
      · rw [if_neg hpq] at hq
        rcases h4 q v hq with ⟨hv, hs⟩
        refine ⟨by simp; omega, ?_⟩
        rw [getD_append_lt _ _ _ _ hv]
        exact hs
    · intro q v hq hqne
      rw [mapGet_insert] at hq
      by_cases hpq : p = q
      · rw [if_pos hpq] at hq
        obtain rfl := (Option.some.inj hq).symm
        subst hpq
        refine ⟨hpt, ?_⟩
        rw [getD_append_self_gen]
      · rw [if_neg hpq] at hq
        rcases h5 q v hq hqne with ⟨hq1, hq2⟩
        rcases h4 q v hq with ⟨hv, -⟩
        refine ⟨hq1, ?_⟩
        rw [getD_append_lt _ _ _ _ hv]
        exact hq2

theorem phaseA_inv (ts : TokenSet) : PhaseAInv ts (phaseA ts) := by
  unfold phaseA
  apply foldl_preserve _ (PhaseAInv ts)
  · refine ⟨by simp, rfl, ?_, ?_, ?_⟩
    · rw [mapGet_insert, if_pos rfl]
    · intro p v hp
      rw [mapGet_insert] at hp
      by_cases h : ([] : ByteStr) = p
      · rw [if_pos h] at hp
        obtain rfl := (Option.some.inj hp).symm
        exact ⟨by simp, h ▸ rfl⟩
      · rw [if_neg h] at hp
        exact Option.noConfusion hp
    · intro p v hp hne
      rw [mapGet_insert] at hp
      by_cases h : ([] : ByteStr) = p
      · exact absurd h.symm hne
      · rw [if_neg h] at hp
        exact Option.noConfusion hp
  · intro acc tok htok hinv
    apply foldl_preserve _ (PhaseAInv ts)
    · exact hinv
    · intro acc2 e he hinv2
      have he' : e < tok.string.length := List.mem_range.1 he
      apply addPrefixState_inv ts acc2 (tok.string.take (e + 1)) ?_ ?_ hinv2
      · intro hnil
        have hle := congrArg List.length hnil
        rw [List.length_take] at hle
        simp only [List.length_nil] at hle
        omega
      · exact ⟨tok, htok, List.take_prefix _ _⟩

theorem addPrefixState_mono (m : List (ByteStr × Nat))
    (acc : List SuffixState × List (ByteStr × Nat)) (p q : ByteStr)
    (h : (mapGet acc.2 q).isSome = true) :
    (mapGet (addPrefixState m acc p).2 q).isSome = true := by
  unfold addPrefixState
  by_cases hmem : (mapGet acc.2 p).isSome = true
  · rw [if_pos hmem]
    exact h
  · rw [if_neg hmem]
    show (mapGet (mapInsert acc.2 p acc.1.length) q).isSome = true
    rw [mapGet_insert]
    by_cases hpq : p = q
    · rw [if_pos hpq]
      rfl
    · rw [if_neg hpq]
      exact h

theorem addPrefixState_self (m : List (ByteStr × Nat))
    (acc : List SuffixState × List (ByteStr × Nat)) (p : ByteStr) :
    (mapGet (addPrefixState m acc p).2 p).isSome = true := by
  unfold addPrefixState
  by_cases hmem : (mapGet acc.2 p).isSome = true
  · rw [if_pos hmem]
    exact hmem
  · rw [if_neg hmem]
    show (mapGet (mapInsert acc.2 p acc.1.length) p).isSome = true
    rw [mapGet_insert, if_pos rfl]
    rfl

/-- All prefixes of `tok`'s string are in the accumulator's map. -/
def TokPrefixesIn (tok : Token) (acc : List SuffixState × List (ByteStr × Nat)) :
    Prop :=
  ∀ e, e < tok.string.length →
    (mapGet acc.2 (tok.string.take (e + 1))).isSome = true

theorem phaseA_complete (ts : TokenSet) :
    ∀ tok ∈ ts.tokens, TokPrefixesIn tok (phaseA ts) := by
  intro tok htok
  unfold phaseA
  apply foldl_establish _ TokPrefixesIn ?_ ?_ ts.tokens _ tok htok
  · intro b a
    intro e he
    apply foldl_establish (fun acc k =>
        addPrefixState ts.tokens_by_string acc (a.string.take (k + 1)))
      (fun k acc => (mapGet acc.2 (a.string.take (k + 1))).isSome = true)
      ?_ ?_ (List.range a.string.length) b e (List.mem_range.2 he)
    · intro b2 k
      exact addPrefixState_self _ _ _
    · intro b2 k k2 hk
      exact addPrefixState_mono _ _ _ _ hk
  · intro b a a2 hR e he
    exact foldl_preserve
      (fun acc k => addPrefixState ts.tokens_by_string acc (a2.string.take (k + 1)))
      (fun acc => (mapGet acc.2 (a.string.take (e + 1))).isSome = true)
      (List.range a2.string.length) b (hR e he)
      (fun b2 k _ hsome => addPrefixState_mono _ _ _ _ hsome)

theorem generateSuffixes_map_string (ts : TokenSet) :
    ts.generateSuffixes.tokens.map Token.string = ts.tokens.map Token.string := by
  apply List.ext_getElem (by simp [generateSuffixes_length])
  intro i h1 h2
  simp only [List.getElem_map]
  have hlen : i < ts.tokens.length := by simpa using h2
  have hg := generateSuffixes_tokens_getD ts i hlen
  rw [List.getD_eq_getElem _ _ (by rw [generateSuffixes_length]; exact hlen),
    List.getD_eq_getElem _ _ hlen] at hg
  rw [hg]
  by_cases h : i < 256
  · rw [if_pos h]
  · rw [if_neg h]
    cases firstSuffixHit ts.tokens_by_string (ts.tokens[i]).string 1 <;> rfl

theorem foldl_by_string {β : Type} (g : β → ByteStr → β) :
    ∀ (l1 l2 : List Token), l1.map Token.string = l2.map Token.string →
      ∀ acc : β, l1.foldl (fun a t => g a t.string) acc =
        l2.foldl (fun a t => g a t.string) acc := by
  intro l1
  induction l1 with
  | nil =>
    intro l2 h acc
    cases l2 with
    | nil => rfl
    | cons t2 ts2 => exact absurd h (by simp)
  | cons t ts ih =>
    intro l2 h acc
    cases l2 with
    | nil => exact absurd h (by simp)
    | cons t2 ts2 =>
      simp only [List.map_cons, List.cons.injEq] at h
      rw [List.foldl_cons, List.foldl_cons, h.1]
      exact ih ts2 h.2 (g acc t2.string)

theorem phaseA_generateSuffixes (ts : TokenSet) :
    phaseA ts.generateSuffixes = phaseA ts := by
  unfold phaseA
  have hbs : ts.generateSuffixes.tokens_by_string = ts.tokens_by_string := rfl
  rw [hbs]
  exact foldl_by_string
    (fun a s => (List.range s.length).foldl
      (fun a2 e => addPrefixState ts.tokens_by_string a2 (s.take (e + 1))) a)
    ts.generateSuffixes.tokens ts.tokens (generateSuffixes_map_string ts) _

end MainRs

/-! ### Suffix utilities -/

theorem suffix_append_singleton {α : Type} {l₁ l₂ : List α} (h : l₁ <:+ l₂)
    (b : α) : l₁ ++ [b] <:+ l₂ ++ [b] := by
  rcases h with ⟨u, hu⟩
  exact ⟨u, by rw [← hu, List.append_assoc]⟩

theorem suffix_of_suffix_length_le {α : Type} {s t x : List α}
    (hs : s <:+ x) (ht : t <:+ x) (hlen : s.length ≤ t.length) : s <:+ t := by
  have hs' := List.suffix_iff_eq_drop.1 hs
  have ht' := List.suffix_iff_eq_drop.1 ht
  rw [hs', ht']
  rw [show x.length - s.length = (x.length - t.length) +
    (t.length - s.length) from by
      have := hs.length_le
      have := ht.length_le
      omega]
  rw [← List.drop_drop]
  exact List.drop_suffix _ _

theorem suffix_snoc_cases {α : Type} {s x : List α} {b : α}
    (h : s <:+ x ++ [b]) : s = [] ∨ ∃ s2, s = s2 ++ [b] ∧ s2 <:+ x := by
  rcases Nat.eq_zero_or_pos s.length with h0 | hpos
  · exact Or.inl (List.length_eq_zero.1 h0)
  · right
    have hd := List.suffix_iff_eq_drop.1 h
    have hlen : s.length ≤ x.length + 1 := by
      have := h.length_le
      simpa using this
    have hle : (x ++ [b]).length - s.length ≤ x.length := by
      simp only [List.length_append, List.length_cons, List.length_nil]
      omega
    rw [List.drop_append_of_le_length hle] at hd
    refine ⟨x.drop ((x ++ [b]).length - s.length), hd, List.drop_suffix _ _⟩

/-! ### Walk semantics -/

namespace MainRs

theorem getD_map_of_lt {α β : Type} (f : α → β) (l : List α) (d : α) (d2 : β)
    (v : Nat) (h : v < l.length) : (l.map f).getD v d2 = f (l.getD v d) := by
  rw [List.getD_eq_getElem _ _ (by simpa using h), List.getD_eq_getElem _ _ h,
    List.getElem_map]

theorem tokenizer_new_suffix_states (ts : TokenSet) :
    (Tokenizer.new ts).suffix_states =
      (phaseA ts).1.map (fillNext (phaseA ts).2) := by
  show createSuffixStates ts.generateSuffixes = _
  unfold createSuffixStates
  rw [phaseA_generateSuffixes]

theorem new_states_length (ts : TokenSet) :
    (Tokenizer.new ts).suffix_states.length = (phaseA ts).1.length := by
  rw [tokenizer_new_suffix_states, List.length_map]

theorem new_states_getD (ts : TokenSet) (v : Nat) (hv : v < (phaseA ts).1.length) :
    (Tokenizer.new ts).suffix_states.getD v dSS =
      fillNext (phaseA ts).2 ((phaseA ts).1.getD v dSS) := by
  rw [tokenizer_new_suffix_states, getD_map_of_lt _ _ dSS dSS v hv]

theorem new_next_getD (ts : TokenSet) (v b : Nat)
    (hv : v < (phaseA ts).1.length) (hb : b < 256) :
    ((Tokenizer.new ts).suffix_states.getD v dSS).next.getD b 0 =
      (firstSuffixHit (phaseA ts).2
        (((phaseA ts).1.getD v dSS).suffix ++ [b]) 0).getD 0 := by
  rw [new_states_getD ts v hv]
  unfold fillNext
  dsimp only
  rw [rangeMap_getD, if_pos hb]

theorem isPrefTok_byte (ts : TokenSet) (hwf : WF ts) (b : Nat) (hb : b < 256) :
    IsPrefTok ts.tokens [b] := by
  obtain ⟨hlen, hW1, -, -, -, -, -⟩ := hwf
  have hB := hW1 b hb
  refine ⟨ts.tokens.getD b dTok, ?_, ?_⟩
  · rw [List.getD_eq_getElem _ _ (by omega)]
    exact List.getElem_mem _
  · rw [hB]

theorem phaseA_dom (ts : TokenSet) (q : ByteStr) (hq : q ≠ []) :
    (mapGet (phaseA ts).2 q).isSome = true ↔ IsPrefTok ts.tokens q := by
  constructor
  · intro h
    rcases Option.isSome_iff_exists.1 h with ⟨v, hv⟩
    exact ((phaseA_inv ts).2.2.2.2 q v hv hq).1
  · rintro ⟨tok, htok, hpre⟩
    have hlen : q.length ≤ tok.string.length := hpre.length_le
    have hqlen : 1 ≤ q.length := by
      cases q with
      | nil => exact absurd rfl hq
      | cons c cs => simp
    have htake : tok.string.take ((q.length - 1) + 1) = q := by
      rw [show (q.length - 1) + 1 = q.length from by omega]
      exact (List.prefix_iff_eq_take.1 hpre).symm
    have hc := phaseA_complete ts tok htok (q.length - 1) (by omega)
    rwa [htake] at hc

/-- The core automaton step: from the state recognizing the longest
token-prefix suffix `σ` of `x`, the Phase-B scan at `σ ++ [b]` hits the state
recognizing the longest token-prefix suffix of `x ++ [b]`. -/
theorem firstSuffixHit_phaseA_target (ts : TokenSet) (hwf : WF ts)
    (x : List Nat) (b : Nat) (hb : b < 256) :
    ∃ w, firstSuffixHit (phaseA ts).2 (longestSufPref ts.tokens x ++ [b]) 0 =
        some w ∧
      w < (phaseA ts).1.length ∧
      ((phaseA ts).1.getD w dSS).suffix = longestSufPref ts.tokens (x ++ [b]) ∧
      mapGet (phaseA ts).2 (longestSufPref ts.tokens (x ++ [b])) = some w := by
  set σ := longestSufPref ts.tokens x with hσ
  set r := σ ++ [b] with hr
  have hLr : r.length = σ.length + 1 := by simp [hr]
  have hbtok : IsPrefTok ts.tokens [b] := isPrefTok_byte ts hwf b hb
  have hlastdom : (mapGet (phaseA ts).2 (r.drop σ.length)).isSome = true := by
    rw [hr, List.drop_left]
    exact (phaseA_dom ts [b] (by simp)).2 hbtok
  have hex : firstSuffixHit (phaseA ts).2 r 0 ≠ none := by
    intro hnone
    have := (firstSuffixHit_eq_none _ _ 0).1 hnone σ.length (by omega) (by omega)
    rw [this] at hlastdom
    exact Bool.noConfusion hlastdom
  rcases Option.ne_none_iff_exists'.1 hex with ⟨w, hw⟩
  rcases (firstSuffixHit_eq_some _ _ 0 w).1 hw with ⟨k, -, hk2, hk3, hk4⟩
  have hinv := phaseA_inv ts
  rcases hinv.2.2.2.1 (r.drop k) w hk3 with ⟨hwlt, hwsuf⟩
  have hTne : r.drop k ≠ [] := by
    intro hnil
    have := congrArg List.length hnil
    rw [List.length_drop] at this
    simp at this
    omega
  have hTpref : IsPrefTok ts.tokens (r.drop k) :=
    (hinv.2.2.2.2 (r.drop k) w hk3 hTne).1
  have hmain : longestSufPref ts.tokens (x ++ [b]) = r.drop k := by
    apply longestSufPref_eq_of ts.tokens (x ++ [b]) (r.drop k) hTne
    · have h1 : r.drop k <:+ r := List.drop_suffix _ _
      have h2 : r <:+ x ++ [b] :=
        suffix_append_singleton (hσ ▸ longestSufPref_suffix ts.tokens x) b
      exact h1.trans h2
    · exact hTpref
    · intro s hs hsp
      rcases suffix_snoc_cases hs with rfl | ⟨s2, rfl, hs2⟩
      · simp
      · have hs2p : IsPrefTok ts.tokens s2 := by
          rcases hsp with ⟨tok, htok, hpre⟩
          exact ⟨tok, htok, (List.prefix_append s2 [b]).trans hpre⟩
        have hs2len : s2.length ≤ σ.length :=
          hσ ▸ longestSufPref_maximal ts.tokens x s2 hs2 hs2p
        have hs2σ : s2 <:+ σ :=
          suffix_of_suffix_length_le hs2 (hσ ▸ longestSufPref_suffix ts.tokens x)
            hs2len
        have hsr : s2 ++ [b] <:+ r := suffix_append_singleton hs2σ b
        have hks : s2 ++ [b] = r.drop (r.length - (s2 ++ [b]).length) :=
          List.suffix_iff_eq_drop.1 hsr
        have hdom : (mapGet (phaseA ts).2
            (r.drop (r.length - (s2 ++ [b]).length))).isSome = true := by
          rw [← hks]
          exact (phaseA_dom ts (s2 ++ [b]) (by simp)).2 hsp
        have hklek : k ≤ r.length - (s2 ++ [b]).length := by
          by_contra hgt
          have := hk4 (r.length - (s2 ++ [b]).length) (by omega) (by omega)
          rw [this] at hdom
          exact Bool.noConfusion hdom
        have hlen1 : (s2 ++ [b]).length ≤ r.length := hsr.length_le
        calc (s2 ++ [b]).length = r.length - (r.length - (s2 ++ [b]).length) := by
              omega
          _ ≤ r.length - k := by omega
          _ = (r.drop k).length := by rw [List.length_drop]
  refine ⟨w, hw, hwlt, ?_, ?_⟩
  · rw [hwsuf, hmain]
  · rw [hmain]
    exact hk3

theorem walkBytes_append (tk : Tokenizer) (x : List Nat) (b : Nat) :
    walkBytes tk (x ++ [b]) =
      (tk.suffix_states.getD (walkBytes tk x) dSS).next.getD b 0 := by
  unfold walkBytes
  rw [List.foldl_append]
  rfl

/-- The automaton walk invariant: after consuming `x` the walk sits on a
valid state whose string is the longest token-prefix suffix of `x`. -/
theorem walk_state_spec (ts : TokenSet) (hwf : WF ts) :
    ∀ x : List Nat, (∀ b ∈ x, b < 256) →
      walkBytes (Tokenizer.new ts) x < (phaseA ts).1.length ∧
      ((phaseA ts).1.getD (walkBytes (Tokenizer.new ts) x) dSS).suffix =
        longestSufPref ts.tokens x ∧
      mapGet (phaseA ts).2 (longestSufPref ts.tokens x) =
        some (walkBytes (Tokenizer.new ts) x) := by
  intro x
  induction x using List.reverseRecOn with
  | nil =>
    intro hx
    have hinv := phaseA_inv ts
    have h1 := hinv.1
    refine ⟨?_, ?_, ?_⟩
    · show 0 < (phaseA ts).1.length
      omega
    · show ((phaseA ts).1.getD 0 dSS).suffix = longestSufPref ts.tokens []
      rw [hinv.2.1]
      rfl
    · show mapGet (phaseA ts).2 (longestSufPref ts.tokens []) = some 0
      exact hinv.2.2.1
  | append_singleton x b ih =>
    intro hx
    have hb : b < 256 := hx b (List.mem_append.2 (Or.inr (List.mem_cons_self b [])))
    have hx' : ∀ b2 ∈ x, b2 < 256 := fun b2 h2 =>
      hx b2 (List.mem_append.2 (Or.inl h2))
    rcases ih hx' with ⟨hv, hσ, -⟩
    rcases firstSuffixHit_phaseA_target ts hwf x b hb with ⟨w, hw, hwlt, hwsuf, hwmap⟩
    have hstep : walkBytes (Tokenizer.new ts) (x ++ [b]) = w := by
      rw [walkBytes_append, new_next_getD ts _ b (by
        rw [← new_states_length ts] at hv ⊢
        rwa [new_states_length ts] at hv ⊢) hb]
      · rw [hσ, hw]
        rfl
    rw [hstep]
    exact ⟨hwlt, hwsuf, hwmap⟩

end MainRs

/-- C2: for every well-formed `TokenSet` (in particular containing all 256
single-byte literals), feeding a byte sequence `x` byte-by-byte through the
transition table built by `create_suffix_states`, starting at state 0, ends
in the state whose string is the longest suffix of `x` that is also a
prefix of some token in the set. -/
theorem automaton_walk_longest_match (ts : MainRs.TokenSet) (hwf : MainRs.WF ts)
    (x : List Nat) (hx : ∀ b ∈ x, b < 256) :
    ((MainRs.Tokenizer.new ts).suffix_states.getD
        (MainRs.walkBytes (MainRs.Tokenizer.new ts) x) MainRs.dSS).suffix =
      MainRs.longestSufPref ts.tokens x := by
  rcases MainRs.walk_state_spec ts hwf x hx with ⟨hv, hσ, -⟩
  rw [MainRs.new_states_getD ts _ hv]
  exact hσ

theorem automaton_walk_longest_match_witness :
    MainRs.WF MainRs.tsLit ∧
    (∀ b ∈ [97, 98, 97], b < 256) ∧
    ((MainRs.Tokenizer.new MainRs.tsLit).suffix_states.getD
        (MainRs.walkBytes (MainRs.Tokenizer.new MainRs.tsLit) [97, 98, 97])
        MainRs.dSS).suffix =
      MainRs.longestSufPref MainRs.tsLit.tokens [97, 98, 97] :=
  ⟨MainRs.WF_tsLit, by decide,
   automaton_walk_longest_match MainRs.tsLit MainRs.WF_tsLit [97, 98, 97] (by decide)⟩

/-! ### The DP inner loop as a fold over the suffix-link chain -/

namespace MainRs

/-- The candidate cost the DP inner loop computes for token `t` (src/main.rs
lines 317-324): the cost of the cell `|string t|` positions back plus the
token's cost. -/
def dpCand (tokens : List Token) (literal_cost : Nat)
    (cost_array : List DynState) (t : Nat) : Nat :=
  (cost_array.getD (cost_array.length - (tokens.getD t dTok).string.length)
    dDyn).cost +
    (if (tokens.getD t dTok).is_literal then literal_cost else 1)

/-- One iteration of the DP inner loop: keep the candidate on a strict
improvement. -/
def dpStep (tokens : List Token) (literal_cost : Nat)
    (cost_array : List DynState) (best : DynState) (t : Nat) : DynState :=
  if dpCand tokens literal_cost cost_array t < best.cost then
    ⟨dpCand tokens literal_cost cost_array t, t⟩
  else best

theorem bestOnChain_eq_foldl (tokens : List Token) (lc : Nat)
    (ca : List DynState) :
    ∀ (fuel tid : Nat) (best : DynState),
      bestOnChain tokens lc ca fuel tid best =
        (chainList tokens fuel tid).foldl (dpStep tokens lc ca) best := by
  intro fuel
  induction fuel with
  | zero => intro tid best; rfl
  | succ n ih =>
    intro tid best
    rw [bestOnChain, chainList]
    cases hsuf : (tokens.getD tid dTok).suffix with
    | some t =>
      dsimp only
      rw [List.foldl_cons, ih t]
      rfl
    | none =>
      dsimp only
      rw [List.foldl_cons, List.foldl_nil]
      rfl

theorem foldl_dpStep_le (tokens : List Token) (lc : Nat) (ca : List DynState) :
    ∀ (l : List Nat) (best : DynState),
      (l.foldl (dpStep tokens lc ca) best).cost ≤ best.cost ∧
      ∀ t ∈ l, (l.foldl (dpStep tokens lc ca) best).cost ≤
        dpCand tokens lc ca t := by
  intro l
  induction l with
  | nil =>
    intro best
    exact ⟨le_refl _, fun t ht => absurd ht (List.not_mem_nil t)⟩
  | cons a l ih =>
    intro best
    rw [List.foldl_cons]
    rcases ih (dpStep tokens lc ca best a) with ⟨h1, h2⟩
    have hstep : (dpStep tokens lc ca best a).cost ≤ best.cost ∧
        (dpStep tokens lc ca best a).cost ≤ dpCand tokens lc ca a := by
      unfold dpStep
      by_cases hlt : dpCand tokens lc ca a < best.cost
      · rw [if_pos hlt]
        exact ⟨le_of_lt hlt, le_refl _⟩
      · rw [if_neg hlt]
        exact ⟨le_refl _, by omega⟩
    refine ⟨h1.trans hstep.1, ?_⟩
    intro t ht
    rcases List.mem_cons.1 ht with rfl | htl
    · exact h1.trans hstep.2
    · exact h2 t htl

theorem foldl_dpStep_attained (tokens : List Token) (lc : Nat)
    (ca : List DynState) :
    ∀ (l : List Nat) (best : DynState),
      l.foldl (dpStep tokens lc ca) best = best ∨
      ∃ t ∈ l, l.foldl (dpStep tokens lc ca) best =
        ⟨dpCand tokens lc ca t, t⟩ := by
  intro l
  induction l with
  | nil => intro best; exact Or.inl rfl
  | cons a l ih =>
    intro best
    rw [List.foldl_cons]
    unfold dpStep
    by_cases hlt : dpCand tokens lc ca a < best.cost
    · rw [if_pos hlt]
      rcases ih ⟨dpCand tokens lc ca a, a⟩ with h | ⟨t, ht, h⟩
      · exact Or.inr ⟨a, List.mem_cons_self a l, h⟩
      · exact Or.inr ⟨t, List.mem_cons_of_mem a ht, h⟩
    · rw [if_neg hlt]
      rcases ih best with h | ⟨t, ht, h⟩
      · exact Or.inl h
      · exact Or.inr ⟨t, List.mem_cons_of_mem a ht, h⟩

theorem chainList_self_mem (tokens : List Token) (fuel tid : Nat)
    (h : 1 ≤ fuel) : tid ∈ chainList tokens fuel tid := by
  cases fuel with
  | zero => omega
  | succ n =>
    rw [chainList]
    exact List.mem_cons_self _ _

end MainRs

/-! ### Transfer between a `TokenSet` and its `generate_suffixes` image -/

namespace MainRs

theorem gts_string_getD (ts : TokenSet) (i : Nat) :
    ((ts.generateSuffixes).tokens.getD i dTok).string =
      (ts.tokens.getD i dTok).string := by
  by_cases h : i < ts.tokens.length
  · rw [generateSuffixes_tokens_getD ts i h]
    by_cases h2 : i < 256
    · rw [if_pos h2]
    · rw [if_neg h2]
      cases hm : firstSuffixHit ts.tokens_by_string
          (ts.tokens.getD i dTok).string 1 with
      | some idx => rfl
      | none => rfl
  · rw [getD_default_of_le _ _ _ (by rw [generateSuffixes_length]; omega),
      getD_default_of_le _ _ _ (by omega)]

theorem gts_islit_getD (ts : TokenSet) (i : Nat) :
    ((ts.generateSuffixes).tokens.getD i dTok).is_literal =
      (ts.tokens.getD i dTok).is_literal := by
  by_cases h : i < ts.tokens.length
  · rw [generateSuffixes_tokens_getD ts i h]
    by_cases h2 : i < 256
    · rw [if_pos h2]
    · rw [if_neg h2]
      cases hm : firstSuffixHit ts.tokens_by_string
          (ts.tokens.getD i dTok).string 1 with
      | some idx => rfl
      | none => rfl
  · rw [getD_default_of_le _ _ _ (by rw [generateSuffixes_length]; omega),
      getD_default_of_le _ _ _ (by omega)]

theorem gts_literal_cost (ts : TokenSet) :
    (ts.generateSuffixes).literal_cost = ts.literal_cost := rfl

theorem gts_tokens_by_string (ts : TokenSet) :
    (ts.generateSuffixes).tokens_by_string = ts.tokens_by_string := rfl

theorem dpCand_eq (ts : TokenSet) (ca : List DynState) (t : Nat) :
    dpCand (ts.generateSuffixes).tokens (ts.generateSuffixes).literal_cost ca t =
      (ca.getD (ca.length - (ts.tokens.getD t dTok).string.length) dDyn).cost +
        tokCost ts t := by
  unfold dpCand tokCost
  rw [gts_string_getD, gts_islit_getD, gts_literal_cost]

/-- Under `WF` every token string is non-empty. -/
theorem wf_string_ne (ts : TokenSet) (hwf : WF ts) (i : Nat)
    (hi : i < ts.tokens.length) : (ts.tokens.getD i dTok).string ≠ [] := by
  obtain ⟨-, hW1, hW2, -, -, -, -⟩ := hwf
  by_cases h : i < 256
  · rw [hW1 i h]
    intro hc
    exact List.noConfusion hc
  · exact (hW2 i hi (by omega)).2.1

theorem tokCost_le_lc (ts : TokenSet) (hwf : WF ts) (t : Nat) :
    tokCost ts t ≤ ts.literal_cost := by
  unfold tokCost
  by_cases h : (ts.tokens.getD t dTok).is_literal
  · rw [if_pos h]
  · rw [if_neg h]
    exact hwf.2.2.2.2.2.2

/-- The reverse map sends every token string of a well-formed set to an index
holding the same string at no greater cost (the newest duplicate, which is
non-literal whenever a duplicate exists). -/
theorem canon_cost_le (ts : TokenSet) (hwf : WF ts) (u v : Nat)
    (hu : u < ts.tokens.length)
    (hv : mapGet ts.tokens_by_string ((ts.tokens.getD u dTok).string) = some v) :
    v < ts.tokens.length ∧
    (ts.tokens.getD v dTok).string = (ts.tokens.getD u dTok).string ∧
    tokCost ts v ≤ tokCost ts u := by
  obtain ⟨hlen, hW1, hW2, -, hW5, hW6, hW7⟩ := hwf
  rw [hW6] at hv
  rcases (mapGet_canon_tokens_main ts.tokens _ v).1 hv with ⟨hvlt, hvs, hvmax⟩
  refine ⟨hvlt, hvs, ?_⟩
  rcases Nat.lt_trichotomy u v with huv | rfl | hvu
  · by_cases hu256 : u < 256
    · have hustr : (ts.tokens.getD u dTok).string = [u] := by rw [hW1 u hu256]
      have hulit : (ts.tokens.getD u dTok).is_literal = true := by rw [hW1 u hu256]
      by_cases hv256 : v < 256
      · have hvstr : (ts.tokens.getD v dTok).string = [v] := by rw [hW1 v hv256]
        rw [hvstr, hustr] at hvs
        have : v = u := (List.cons.inj hvs).1
        omega
      · have hvlit : (ts.tokens.getD v dTok).is_literal = false :=
          (hW2 v hvlt (by omega)).1
        unfold tokCost
        rw [hvlit, hulit, if_pos rfl]
        simp only [Bool.false_eq_true, if_false]
        exact hW7
    · exact absurd hvs.symm (hW5 u hu v hvlt (by omega) huv)
  · exact le_refl _
  · exact absurd rfl (hvmax u hvu hu)

end MainRs

/-! ### Suffix links after `generate_suffixes` -/

namespace MainRs

/-- Soundness of the generated suffix links: a link points to a strictly
shorter non-empty suffix of the token's string, registered under its own
string in the reverse map. -/
theorem gts_suffix_sound (ts : TokenSet) (hwf : WF ts) (i j : Nat)
    (hj : ((ts.generateSuffixes).tokens.getD i dTok).suffix = some j) :
    j < ts.tokens.length ∧
    (ts.tokens.getD j dTok).string ≠ [] ∧
    (ts.tokens.getD j dTok).string <:+ (ts.tokens.getD i dTok).string ∧
    (ts.tokens.getD j dTok).string.length <
      (ts.tokens.getD i dTok).string.length ∧
    mapGet ts.tokens_by_string ((ts.tokens.getD j dTok).string) = some j := by
  have hi : i < ts.tokens.length := by
    by_contra hge
    rw [getD_default_of_le _ _ _ (by rw [generateSuffixes_length]; omega)] at hj
    exact Option.noConfusion hj
  rw [generateSuffixes_tokens_getD ts i hi] at hj
  by_cases h256 : i < 256
  · rw [if_pos h256] at hj
    rw [hwf.2.1 i h256] at hj
    exact Option.noConfusion hj
  · rw [if_neg h256] at hj
    cases hm : firstSuffixHit ts.tokens_by_string
        (ts.tokens.getD i dTok).string 1 with
    | none =>
      rw [hm] at hj
      rw [(hwf.2.2.1 i hi (by omega)).2.2] at hj
      exact Option.noConfusion hj
    | some idx =>
      rw [hm] at hj
      have hidx : idx = j := Option.some.inj hj
      subst hidx
      rcases (firstSuffixHit_eq_some _ _ 1 idx).1 hm with ⟨k, hk1, hk2, hk3, -⟩
      have hv := hk3
      rw [hwf.2.2.2.2.2.1] at hv
      rcases (mapGet_canon_tokens_main ts.tokens _ idx).1 hv with ⟨hlt, hstr, -⟩
      have hlenm : (ts.tokens.getD idx dTok).string.length =
          (ts.tokens.getD i dTok).string.length - k := by
        rw [hstr, List.length_drop]
      refine ⟨hlt, ?_, ?_, ?_, ?_⟩
      · intro hnil
        rw [hnil] at hlenm
        simp only [List.length_nil] at hlenm
        omega
      · rw [hstr]
        exact List.drop_suffix _ _
      · omega
      · rw [hstr]
        exact hk3

/-- Completeness of the generated suffix links: whenever a token has any
shorter non-empty token-string suffix, the link exists and points to one at
least as long. -/
theorem gts_suffix_complete (ts : TokenSet) (hwf : WF ts) (i u : Nat)
    (hi : i < ts.tokens.length) (hu : u < ts.tokens.length)
    (hsuf : (ts.tokens.getD u dTok).string <:+ (ts.tokens.getD i dTok).string)
    (hne : (ts.tokens.getD u dTok).string ≠ [])
    (hlt : (ts.tokens.getD u dTok).string.length <
      (ts.tokens.getD i dTok).string.length) :
    ∃ j, ((ts.generateSuffixes).tokens.getD i dTok).suffix = some j ∧
      (ts.tokens.getD u dTok).string <:+ (ts.tokens.getD j dTok).string := by
  have hulen : 1 ≤ (ts.tokens.getD u dTok).string.length := by
    cases hul : (ts.tokens.getD u dTok).string with
    | nil => exact absurd hul hne
    | cons c cs => simp
  have h256 : ¬i < 256 := by
    intro h
    rw [hwf.2.1 i h] at hlt
    simp only [List.length_cons, List.length_nil] at hlt
    omega
  set s := (ts.tokens.getD i dTok).string with hs
  set ku := s.length - (ts.tokens.getD u dTok).string.length with hku
  have hdropu : s.drop ku = (ts.tokens.getD u dTok).string := by
    rw [hku, ← List.suffix_iff_eq_drop.1 hsuf]
  have hmemu : (mapGet ts.tokens_by_string (s.drop ku)).isSome = true := by
    rw [hdropu, hwf.2.2.2.2.2.1]
    rw [mapGet_canonOf_isSome]
    refine List.mem_map.2 ⟨ts.tokens.getD u dTok, ?_, rfl⟩
    rw [List.getD_eq_getElem _ _ hu]
    exact List.getElem_mem hu
  have hex : firstSuffixHit ts.tokens_by_string s 1 ≠ none := by
    intro hnone
    have := (firstSuffixHit_eq_none _ _ 1).1 hnone ku (by omega) (by omega)
    rw [this] at hmemu
    exact Bool.noConfusion hmemu
  rcases Option.ne_none_iff_exists'.1 hex with ⟨j, hjhit⟩
  rcases (firstSuffixHit_eq_some _ _ 1 j).1 hjhit with ⟨k0, hk01, hk02, hk03, hk04⟩
  have hv := hk03
  rw [hwf.2.2.2.2.2.1] at hv
  rcases (mapGet_canon_tokens_main ts.tokens _ j).1 hv with ⟨hjlt, hjstr, -⟩
  have hk0ku : k0 ≤ ku := by
    by_contra hgt
    have := hk04 ku (by omega) (by omega)
    rw [this] at hmemu
    exact Bool.noConfusion hmemu
  refine ⟨j, ?_, ?_⟩
  · rw [generateSuffixes_tokens_getD ts i hi, if_neg h256, ← hs, hjhit]
  · have hjsuf : (ts.tokens.getD j dTok).string <:+ s := by
      rw [hjstr]
      exact List.drop_suffix _ _
    have hjlen : (ts.tokens.getD u dTok).string.length ≤
        (ts.tokens.getD j dTok).string.length := by
      rw [hjstr, List.length_drop]
      omega
    exact suffix_of_suffix_length_le hsuf hjsuf hjlen

/-- The pigeonhole measure driving the chain-fuel argument: the number of
token indices whose strings are no longer than `tid`'s. -/
def lenMeasure (ts : TokenSet) (tid : Nat) : Nat :=
  ((Finset.range ts.tokens.length).filter
    (fun i => (ts.tokens.getD i dTok).string.length ≤
      (ts.tokens.getD tid dTok).string.length)).card

theorem lenMeasure_le (ts : TokenSet) (tid : Nat) :
    lenMeasure ts tid ≤ ts.tokens.length := by
  unfold lenMeasure
  exact (Finset.card_filter_le _ _).trans (le_of_eq (Finset.card_range _))

theorem lenMeasure_lt (ts : TokenSet) (tid j : Nat)
    (htid : tid < ts.tokens.length)
    (h : (ts.tokens.getD j dTok).string.length <
      (ts.tokens.getD tid dTok).string.length) :
    lenMeasure ts j < lenMeasure ts tid := by
  apply Finset.card_lt_card
  rw [Finset.ssubset_def]
  constructor
  · intro i hi
    rw [Finset.mem_filter] at hi ⊢
    refine ⟨hi.1, ?_⟩
    have := hi.2
    omega
  · intro hsub
    have htidmem : tid ∈ (Finset.range ts.tokens.length).filter
        (fun i => (ts.tokens.getD i dTok).string.length ≤
          (ts.tokens.getD tid dTok).string.length) := by
      rw [Finset.mem_filter]
      exact ⟨Finset.mem_range.2 htid, le_refl _⟩
    have h2 := hsub htidmem
    rw [Finset.mem_filter] at h2
    have := h2.2
    omega

/-- Every node on the suffix-link chain is a valid token whose string is a
non-empty suffix of the head's string. -/
theorem chain_sound (ts : TokenSet) (hwf : WF ts) :
    ∀ (fuel tid : Nat), tid < ts.tokens.length →
      ∀ v ∈ chainList (ts.generateSuffixes).tokens fuel tid,
        v < ts.tokens.length ∧
        (ts.tokens.getD v dTok).string ≠ [] ∧
        (ts.tokens.getD v dTok).string <:+ (ts.tokens.getD tid dTok).string := by
  intro fuel
  induction fuel with
  | zero =>
    intro tid htid v hv
    exact absurd hv (List.not_mem_nil v)
  | succ n ih =>
    intro tid htid v hv
    rw [chainList] at hv
    rcases List.mem_cons.1 hv with rfl | hrest
    · exact ⟨htid, wf_string_ne ts hwf v htid, List.suffix_rfl⟩
    · cases hsuf : ((ts.generateSuffixes).tokens.getD tid dTok).suffix with
      | none =>
        rw [hsuf] at hrest
        exact absurd hrest (List.not_mem_nil v)
      | some j =>
        rw [hsuf] at hrest
        rcases gts_suffix_sound ts hwf tid j hsuf with ⟨hjlt, -, hjsuf, -, -⟩
        rcases ih j hjlt v hrest with ⟨h1, h2, h3⟩
        exact ⟨h1, h2, h3.trans hjsuf⟩

/-- Chain coverage: every non-empty token-string suffix of the chain head's
string is represented on the chain by a node with the same string and no
greater cost, provided the fuel exceeds the pigeonhole measure of the head
and the head is the index its own string maps to. -/
theorem chain_covers (ts : TokenSet) (hwf : WF ts) :
    ∀ (fuel tid u : Nat), tid < ts.tokens.length →
      mapGet ts.tokens_by_string ((ts.tokens.getD tid dTok).string) = some tid →
      u < ts.tokens.length →
      (ts.tokens.getD u dTok).string ≠ [] →
      (ts.tokens.getD u dTok).string <:+ (ts.tokens.getD tid dTok).string →
      lenMeasure ts tid < fuel →
      ∃ v ∈ chainList (ts.generateSuffixes).tokens fuel tid,
        (ts.tokens.getD v dTok).string = (ts.tokens.getD u dTok).string ∧
        tokCost ts v ≤ tokCost ts u := by
  intro fuel
  induction fuel with
  | zero =>
    intro tid u htid hcanon hu hune husuf hfuel
    omega
  | succ n ih =>
    intro tid u htid hcanon hu hune husuf hfuel
    rcases Nat.lt_or_ge (ts.tokens.getD u dTok).string.length
        (ts.tokens.getD tid dTok).string.length with hltlen | hgelen
    · rcases gts_suffix_complete ts hwf tid u htid hu husuf hune hltlen with
        ⟨j, hjlink, hujsuf⟩
      rcases gts_suffix_sound ts hwf tid j hjlink with
        ⟨hjlt, -, -, hjlen, hjcanon⟩
      have hmeas : lenMeasure ts j < n := by
        have := lenMeasure_lt ts tid j htid hjlen
        omega
      rcases ih j u hjlt hjcanon hu hune hujsuf hmeas with ⟨v, hvmem, hvstr, hvcost⟩
      refine ⟨v, ?_, hvstr, hvcost⟩
      rw [chainList, hjlink]
      exact List.mem_cons_of_mem _ hvmem
    · have hstreq : (ts.tokens.getD u dTok).string =
          (ts.tokens.getD tid dTok).string :=
        List.IsSuffix.eq_of_length husuf
          (le_antisymm husuf.length_le hgelen)
      refine ⟨tid, chainList_self_mem _ _ _ (by omega), hstreq.symm, ?_⟩
      have hvcanon : mapGet ts.tokens_by_string
          ((ts.tokens.getD u dTok).string) = some tid := by
        rw [hstreq]
        exact hcanon
      exact (canon_cost_le ts hwf u tid hu hvcanon).2.2

end MainRs

/-! ### The DP invariant -/

theorem take_append_le {α : Type} (l₁ l₂ : List α) (n : Nat)
    (h : n ≤ l₁.length) : (l₁ ++ l₂).take n = l₁.take n := by
  rw [List.take_append_eq_append_take, Nat.sub_eq_zero_of_le h, List.take_zero,
    List.append_nil]

namespace MainRs

theorem token_mem_getD (ts : TokenSet) (u : Nat) (hu : u < ts.tokens.length) :
    ts.tokens.getD u dTok ∈ ts.tokens := by
  rw [List.getD_eq_getElem _ _ hu]
  exact List.getElem_mem hu

theorem segCost_append (ts : TokenSet) (s₁ s₂ : List Nat) :
    segCost ts (s₁ ++ s₂) = segCost ts s₁ + segCost ts s₂ := by
  unfold segCost
  rw [List.map_append, List.sum_append]

theorem segCost_singleton (ts : TokenSet) (t : Nat) :
    segCost ts [t] = tokCost ts t := by
  unfold segCost
  simp

/-- The Phase-A `token_id` scan (`firstSuffixHit ... 0`) on a non-empty string
of bytes ending in a literal byte: it finds the longest non-empty token-string
suffix, mapped via the reverse map (hence to the newest index holding it). -/
theorem scan_longest (ts : TokenSet) (hwf : WF ts) (σ s2 : ByteStr) (c : Nat)
    (hσ : σ = s2 ++ [c]) (hc : c < 256) :
    ∃ t0, firstSuffixHit ts.tokens_by_string σ 0 = some t0 ∧
      t0 < ts.tokens.length ∧
      (ts.tokens.getD t0 dTok).string ≠ [] ∧
      (ts.tokens.getD t0 dTok).string <:+ σ ∧
      mapGet ts.tokens_by_string ((ts.tokens.getD t0 dTok).string) = some t0 ∧
      ∀ u, u < ts.tokens.length → (ts.tokens.getD u dTok).string ≠ [] →
        (ts.tokens.getD u dTok).string <:+ σ →
        (ts.tokens.getD u dTok).string.length ≤
          (ts.tokens.getD t0 dTok).string.length := by
  have hσlen : 1 ≤ σ.length := by
    rw [hσ]
    simp
  have hlast : σ.drop (σ.length - 1) = [c] := by
    rw [hσ]
    rw [List.drop_append_of_le_length (by simp)]
    simp
  have hmemc : (mapGet ts.tokens_by_string (σ.drop (σ.length - 1))).isSome =
      true := by
    rw [hlast, hwf.2.2.2.2.2.1, mapGet_canonOf_isSome]
    refine List.mem_map.2 ⟨ts.tokens.getD c dTok, ?_, ?_⟩
    · exact token_mem_getD ts c (by have := hwf.1; omega)
    · rw [hwf.2.1 c hc]
  have hex : firstSuffixHit ts.tokens_by_string σ 0 ≠ none := by
    intro hnone
    have := (firstSuffixHit_eq_none _ _ 0).1 hnone (σ.length - 1) (by omega)
      (by omega)
    rw [this] at hmemc
    exact Bool.noConfusion hmemc
  rcases Option.ne_none_iff_exists'.1 hex with ⟨t0, hhit⟩
  rcases (firstSuffixHit_eq_some _ _ 0 t0).1 hhit with ⟨k0, -, hk02, hk03, hk04⟩
  have hv := hk03
  rw [hwf.2.2.2.2.2.1] at hv
  rcases (mapGet_canon_tokens_main ts.tokens _ t0).1 hv with ⟨hlt, hstr, -⟩
  refine ⟨t0, hhit, hlt, ?_, ?_, ?_, ?_⟩
  · intro hnil
    rw [hnil] at hstr
    have := congrArg List.length hstr
    rw [List.length_drop] at this
    simp at this
    omega
  · rw [hstr]
    exact List.drop_suffix _ _
  · rw [hstr]
    exact hk03
  · intro u hu hune husuf
    set ku := σ.length - (ts.tokens.getD u dTok).string.length with hku
    have hulen : 1 ≤ (ts.tokens.getD u dTok).string.length := by
      cases hul : (ts.tokens.getD u dTok).string with
      | nil => exact absurd hul hune
      | cons d ds => simp
    have hdropu : σ.drop ku = (ts.tokens.getD u dTok).string := by
      rw [hku, ← List.suffix_iff_eq_drop.1 husuf]
    have hmemu : (mapGet ts.tokens_by_string (σ.drop ku)).isSome = true := by
      rw [hdropu, hwf.2.2.2.2.2.1, mapGet_canonOf_isSome]
      exact List.mem_map.2 ⟨ts.tokens.getD u dTok, token_mem_getD ts u hu, rfl⟩
    have hk0ku : k0 ≤ ku := by
      by_contra hgt
      have husle : (ts.tokens.getD u dTok).string.length ≤ σ.length :=
        husuf.length_le
      have := hk04 ku (by omega) (by omega)
      rw [this] at hmemu
      exact Bool.noConfusion hmemu
    have husle : (ts.tokens.getD u dTok).string.length ≤ σ.length :=
      husuf.length_le
    rw [hstr, List.length_drop]
    omega

/-- The state the automaton reaches after a non-empty input carries as its
`token_id` the newest index of the longest non-empty token-string suffix of
the input. -/
theorem walk_token_id_spec (ts : TokenSet) (hwf : WF ts) (x : List Nat)
    (b : Nat) (hx : ∀ c ∈ x, c < 256) (hb : b < 256) :
    ∃ t0,
      ((phaseA ts).1.getD (walkBytes (Tokenizer.new ts) (x ++ [b])) dSS).token_id
        = t0 ∧
      t0 < ts.tokens.length ∧
      (ts.tokens.getD t0 dTok).string ≠ [] ∧
      (ts.tokens.getD t0 dTok).string <:+ x ++ [b] ∧
      mapGet ts.tokens_by_string ((ts.tokens.getD t0 dTok).string) = some t0 ∧
      ∀ u, u < ts.tokens.length → (ts.tokens.getD u dTok).string ≠ [] →
        (ts.tokens.getD u dTok).string <:+ x ++ [b] →
        (ts.tokens.getD u dTok).string <:+ (ts.tokens.getD t0 dTok).string := by
  have hx' : ∀ c ∈ x ++ [b], c < 256 := by
    intro c hcmem
    rcases List.mem_append.1 hcmem with h | h
    · exact hx c h
    · rw [List.mem_singleton.1 h]
      exact hb
  rcases walk_state_spec ts hwf (x ++ [b]) hx' with ⟨hv, hσ, hm⟩
  set σ := longestSufPref ts.tokens (x ++ [b]) with hσdef
  have hσsuf : σ <:+ x ++ [b] := longestSufPref_suffix ts.tokens (x ++ [b])
  have hσlen : 1 ≤ σ.length := by
    have := longestSufPref_maximal ts.tokens (x ++ [b]) [b]
      ⟨x, rfl⟩ (isPrefTok_byte ts hwf b hb)
    simpa using this
  have hσne : σ ≠ [] := by
    intro hc
    rw [hc] at hσlen
    simp at hσlen
  rcases suffix_snoc_cases hσsuf with hnil | ⟨s2, hσeq, -⟩
  · exact absurd hnil hσne
  rcases scan_longest ts hwf σ s2 b hσeq hb with
    ⟨t0, hhit, hlt, hne, htsuf, hcanon, hmaxlen⟩
  have htid := ((phaseA_inv ts).2.2.2.2 σ _ hm hσne).2
  refine ⟨t0, ?_, hlt, hne, htsuf.trans hσsuf, hcanon, ?_⟩
  · rw [htid, hhit]
    rfl
  · intro u hu hune husuf
    have hupref : IsPrefTok ts.tokens (ts.tokens.getD u dTok).string :=
      ⟨ts.tokens.getD u dTok, token_mem_getD ts u hu, List.prefix_rfl⟩
    have hulenσ : (ts.tokens.getD u dTok).string.length ≤ σ.length :=
      longestSufPref_maximal ts.tokens (x ++ [b]) _ husuf hupref
    have huσ : (ts.tokens.getD u dTok).string <:+ σ :=
      suffix_of_suffix_length_le husuf hσsuf hulenσ
    have hut0 : (ts.tokens.getD u dTok).string.length ≤
        (ts.tokens.getD t0 dTok).string.length :=
      hmaxlen u hu hune huσ
    exact suffix_of_suffix_length_le huσ htsuf hut0

/-- Spec-side: `c` is the least cost of any segmentation of `x`, attained. -/
def MinCostSeg (ts : TokenSet) (x : ByteStr) (c : Nat) : Prop :=
  (∃ seg, Segmentation ts x seg ∧ segCost ts seg = c) ∧
  ∀ seg, Segmentation ts x seg → c ≤ segCost ts seg

/-- The back-link stored in DP cell `i`: a valid token whose string is a
non-empty tail of the first `i` bytes, with the cell cost obtained from the
cell `|string|` positions back. -/
def CellLink (ts : TokenSet) (x : List Nat) (ca : List DynState) (i : Nat) :
    Prop :=
  (ca.getD i dDyn).token_id < ts.tokens.length ∧
  (ts.tokens.getD (ca.getD i dDyn).token_id dTok).string ≠ [] ∧
  (ts.tokens.getD (ca.getD i dDyn).token_id dTok).string.length ≤ i ∧
  x.take i =
    x.take (i - (ts.tokens.getD (ca.getD i dDyn).token_id dTok).string.length)
      ++ (ts.tokens.getD (ca.getD i dDyn).token_id dTok).string ∧
  (ca.getD i dDyn).cost =
    (ca.getD (i - (ts.tokens.getD (ca.getD i dDyn).token_id dTok).string.length)
      dDyn).cost + tokCost ts (ca.getD i dDyn).token_id

/-- The invariant carried through `process_byte` over the processed prefix
`x`: the automaton part tracks the walk, and the DP array holds, for every
prefix of `x`, its exact minimal segmentation cost together with a valid
back-link chain. -/
def DPInv (ts : TokenSet) (x : List Nat) (tk : Tokenizer) : Prop :=
  tk.token_set = ts.generateSuffixes ∧
  tk.suffix_states = (Tokenizer.new ts).suffix_states ∧
  tk.current_state = walkBytes (Tokenizer.new ts) x ∧
  tk.cost_array.length = x.length + 1 ∧
  tk.cost_array.getD 0 dDyn = ⟨0, 0x13⟩ ∧
  (∀ i, i ≤ x.length →
    MinCostSeg ts (x.take i) ((tk.cost_array.getD i dDyn).cost)) ∧
  (∀ i, 1 ≤ i → i ≤ x.length → CellLink ts x tk.cost_array i) ∧
  (∀ i, i ≤ x.length →
    (tk.cost_array.getD i dDyn).cost ≤ i * ts.literal_cost)

theorem dpInv_nil (ts : TokenSet) : DPInv ts [] ((Tokenizer.new ts).reset) := by
  refine ⟨rfl, rfl, rfl, rfl, rfl, ?_, ?_, ?_⟩
  · intro i hi
    have hi0 : i = 0 := by simp only [List.length_nil] at hi; omega
    subst hi0
    constructor
    · refine ⟨[], ⟨?_, ?_⟩, ?_⟩
      · intro t ht
        exact absurd ht (List.not_mem_nil t)
      · rfl
      · rfl
    · intro seg hseg
      exact Nat.zero_le _
  · intro i h1 h2
    simp only [List.length_nil] at h2
    omega
  · intro i hi
    have hi0 : i = 0 := by simp only [List.length_nil] at hi; omega
    subst hi0
    exact Nat.zero_le _

end MainRs

theorem suffix_decomp {α : Type} {s l : List α} (h : s <:+ l) :
    l = l.take (l.length - s.length) ++ s := by
  conv_lhs => rw [← List.take_append_drop (l.length - s.length) l]
  rw [← List.suffix_iff_eq_drop.1 h]

namespace MainRs

theorem processByte_eq (tk : Tokenizer) (b : Nat) :
    tk.processByte b =
      { tk with
        current_state := (tk.suffix_states.getD tk.current_state dSS).next.getD b 0,
        cost_array := tk.cost_array ++
          [bestOnChain tk.token_set.tokens tk.token_set.literal_cost
            tk.cost_array (tk.token_set.tokens.length + 1)
            ((tk.suffix_states.getD
              ((tk.suffix_states.getD tk.current_state dSS).next.getD b 0)
              dSS).token_id)
            ⟨USIZE_MAX, 0⟩] } := rfl

/-- One `process_byte` step preserves the DP invariant (as long as the running
costs stay below the `usize::MAX` sentinel). -/
theorem dpInv_step (ts : TokenSet) (hwf : WF ts) (x : List Nat) (b : Nat)
    (hx : ∀ c ∈ x, c < 256) (hb : b < 256) (tk : Tokenizer)
    (hinv : DPInv ts x tk)
    (hbound : (x.length + 1) * ts.literal_cost < USIZE_MAX) :
    DPInv ts (x ++ [b]) (tk.processByte b) := by
  obtain ⟨hts, hss, hcs, hlen, h0, hmin, hlink, hbnd⟩ := hinv
  have hxb : (x ++ [b]).length = x.length + 1 := by simp
  have hx' : ∀ c ∈ x ++ [b], c < 256 := by
    intro c hcmem
    rcases List.mem_append.1 hcmem with h | h
    · exact hx c h
    · rw [List.mem_singleton.1 h]
      exact hb
  have hcur : (tk.suffix_states.getD tk.current_state dSS).next.getD b 0 =
      walkBytes (Tokenizer.new ts) (x ++ [b]) := by
    rw [walkBytes_append, hss, hcs]
  have hwalk := walk_state_spec ts hwf (x ++ [b]) hx'
  rcases walk_token_id_spec ts hwf x b hx hb with
    ⟨t0, ht0id, ht0lt, ht0ne, ht0suf, ht0canon, ht0max⟩
  have hstid : (tk.suffix_states.getD
      (walkBytes (Tokenizer.new ts) (x ++ [b])) dSS).token_id = t0 := by
    rw [hss, new_states_getD ts _ hwalk.1]
    exact ht0id
  have hglen : (ts.generateSuffixes).tokens.length = ts.tokens.length :=
    generateSuffixes_length ts
  have hpb : tk.processByte b =
      { tk with
        current_state := walkBytes (Tokenizer.new ts) (x ++ [b]),
        cost_array := tk.cost_array ++
          [bestOnChain (ts.generateSuffixes).tokens
            (ts.generateSuffixes).literal_cost tk.cost_array
            ((ts.generateSuffixes).tokens.length + 1) t0 ⟨USIZE_MAX, 0⟩] } := by
    rw [processByte_eq, hcur, hstid, hts]
  have hbestfold : bestOnChain (ts.generateSuffixes).tokens
      (ts.generateSuffixes).literal_cost tk.cost_array
      ((ts.generateSuffixes).tokens.length + 1) t0 ⟨USIZE_MAX, 0⟩ =
      (chainList (ts.generateSuffixes).tokens
        ((ts.generateSuffixes).tokens.length + 1) t0).foldl
        (dpStep (ts.generateSuffixes).tokens
          (ts.generateSuffixes).literal_cost tk.cost_array) ⟨USIZE_MAX, 0⟩ :=
    bestOnChain_eq_foldl _ _ _ _ _ _
  have hsound : ∀ v ∈ chainList (ts.generateSuffixes).tokens
      ((ts.generateSuffixes).tokens.length + 1) t0,
      v < ts.tokens.length ∧
      (ts.tokens.getD v dTok).string ≠ [] ∧
      (ts.tokens.getD v dTok).string <:+ (ts.tokens.getD t0 dTok).string :=
    fun v hv => chain_sound ts hwf _ t0 ht0lt v hv
  have hcand : ∀ v ∈ chainList (ts.generateSuffixes).tokens
      ((ts.generateSuffixes).tokens.length + 1) t0,
      1 ≤ (ts.tokens.getD v dTok).string.length ∧
      (ts.tokens.getD v dTok).string.length ≤ x.length + 1 ∧
      dpCand (ts.generateSuffixes).tokens (ts.generateSuffixes).literal_cost
          tk.cost_array v =
        (tk.cost_array.getD
          (x.length + 1 - (ts.tokens.getD v dTok).string.length) dDyn).cost +
          tokCost ts v ∧
      dpCand (ts.generateSuffixes).tokens (ts.generateSuffixes).literal_cost
          tk.cost_array v ≤ (x.length + 1) * ts.literal_cost := by
    intro v hv
    rcases hsound v hv with ⟨hvlt, hvne, hvsuf⟩
    have hv1 : 1 ≤ (ts.tokens.getD v dTok).string.length := by
      cases hvl : (ts.tokens.getD v dTok).string with
      | nil => exact absurd hvl hvne
      | cons d ds => simp
    have hvxb : (ts.tokens.getD v dTok).string <:+ x ++ [b] :=
      hvsuf.trans ht0suf
    have hv2 : (ts.tokens.getD v dTok).string.length ≤ x.length + 1 := by
      have := hvxb.length_le
      omega
    have hceq : dpCand (ts.generateSuffixes).tokens
        (ts.generateSuffixes).literal_cost tk.cost_array v =
        (tk.cost_array.getD
          (x.length + 1 - (ts.tokens.getD v dTok).string.length) dDyn).cost +
          tokCost ts v := by
      rw [dpCand_eq, hlen]
    refine ⟨hv1, hv2, hceq, ?_⟩
    rw [hceq]
    have hc1 : (tk.cost_array.getD
        (x.length + 1 - (ts.tokens.getD v dTok).string.length) dDyn).cost ≤
        (x.length + 1 - (ts.tokens.getD v dTok).string.length) *
          ts.literal_cost :=
      hbnd _ (by omega)
    have hc2 : tokCost ts v ≤ ts.literal_cost := tokCost_le_lc ts hwf v
    calc (tk.cost_array.getD
          (x.length + 1 - (ts.tokens.getD v dTok).string.length) dDyn).cost +
          tokCost ts v ≤
        (x.length + 1 - (ts.tokens.getD v dTok).string.length) *
          ts.literal_cost + ts.literal_cost := Nat.add_le_add hc1 hc2
      _ = ((x.length + 1 - (ts.tokens.getD v dTok).string.length) + 1) *
          ts.literal_cost := (Nat.succ_mul _ _).symm
      _ ≤ (x.length + 1) * ts.literal_cost :=
          Nat.mul_le_mul_right _ (by omega)
  have hle := foldl_dpStep_le (ts.generateSuffixes).tokens
    (ts.generateSuffixes).literal_cost tk.cost_array
    (chainList (ts.generateSuffixes).tokens
      ((ts.generateSuffixes).tokens.length + 1) t0) ⟨USIZE_MAX, 0⟩
  have hbestle : ∀ v ∈ chainList (ts.generateSuffixes).tokens
      ((ts.generateSuffixes).tokens.length + 1) t0,
      (bestOnChain (ts.generateSuffixes).tokens
        (ts.generateSuffixes).literal_cost tk.cost_array
        ((ts.generateSuffixes).tokens.length + 1) t0 ⟨USIZE_MAX, 0⟩).cost ≤
        dpCand (ts.generateSuffixes).tokens
          (ts.generateSuffixes).literal_cost tk.cost_array v := by
    rw [hbestfold]
    exact hle.2
  have hheadmem : t0 ∈ chainList (ts.generateSuffixes).tokens
      ((ts.generateSuffixes).tokens.length + 1) t0 :=
    chainList_self_mem _ _ _ (by omega)
  have hattain : ∃ v ∈ chainList (ts.generateSuffixes).tokens
      ((ts.generateSuffixes).tokens.length + 1) t0,
      bestOnChain (ts.generateSuffixes).tokens
        (ts.generateSuffixes).literal_cost tk.cost_array
        ((ts.generateSuffixes).tokens.length + 1) t0 ⟨USIZE_MAX, 0⟩ =
        ⟨dpCand (ts.generateSuffixes).tokens
          (ts.generateSuffixes).literal_cost tk.cost_array v, v⟩ := by
    rcases foldl_dpStep_attained (ts.generateSuffixes).tokens
        (ts.generateSuffixes).literal_cost tk.cost_array
        (chainList (ts.generateSuffixes).tokens
          ((ts.generateSuffixes).tokens.length + 1) t0) ⟨USIZE_MAX, 0⟩ with
      heq | ⟨v, hvmem, heq⟩
    · exfalso
      have hc := hbestle t0 hheadmem
      rw [hbestfold, heq] at hc
      have hc2 := (hcand t0 hheadmem).2.2.2
      show False
      have : USIZE_MAX ≤ (x.length + 1) * ts.literal_cost := le_trans hc hc2
      omega
    · refine ⟨v, hvmem, ?_⟩
      rw [hbestfold, heq]
  rcases hattain with ⟨vst, hvstmem, hbesteq⟩
  rcases hsound vst hvstmem with ⟨hvstlt, hvstne, hvstsuf⟩
  rcases hcand vst hvstmem with ⟨hvst1, hvst2, hvstceq, -⟩
  have hvstxb : (ts.tokens.getD vst dTok).string <:+ x ++ [b] :=
    hvstsuf.trans ht0suf
  have hvstdecomp : x ++ [b] =
      (x ++ [b]).take (x.length + 1 - (ts.tokens.getD vst dTok).string.length)
        ++ (ts.tokens.getD vst dTok).string := by
    have h := suffix_decomp hvstxb
    rwa [hxb] at h
  have hbestcost : (bestOnChain (ts.generateSuffixes).tokens
      (ts.generateSuffixes).literal_cost tk.cost_array
      ((ts.generateSuffixes).tokens.length + 1) t0 ⟨USIZE_MAX, 0⟩).cost =
      (tk.cost_array.getD
        (x.length + 1 - (ts.tokens.getD vst dTok).string.length) dDyn).cost +
        tokCost ts vst := by
    rw [hbesteq]
    exact hvstceq
  have hminex : ∃ seg, Segmentation ts (x ++ [b]) seg ∧
      segCost ts seg = (bestOnChain (ts.generateSuffixes).tokens
        (ts.generateSuffixes).literal_cost tk.cost_array
        ((ts.generateSuffixes).tokens.length + 1) t0 ⟨USIZE_MAX, 0⟩).cost := by
    obtain ⟨seg0, hseg0, hcost0⟩ :=
      (hmin (x.length + 1 - (ts.tokens.getD vst dTok).string.length)
        (by omega)).1
    refine ⟨seg0 ++ [vst], ⟨?_, ?_⟩, ?_⟩
    · intro t ht
      rcases List.mem_append.1 ht with h | h
      · exact hseg0.1 t h
      · rw [List.mem_singleton.1 h]
        exact hvstlt
    · rw [List.map_append, List.flatten_append, hseg0.2]
      simp only [List.map_cons, List.map_nil, List.flatten_cons,
        List.flatten_nil, List.append_nil]
      rw [← take_append_le x [b]
        (x.length + 1 - (ts.tokens.getD vst dTok).string.length) (by omega)]
      exact hvstdecomp.symm
    · rw [segCost_append, segCost_singleton, hcost0, hbestcost]
  have hminall : ∀ seg, Segmentation ts (x ++ [b]) seg →
      (bestOnChain (ts.generateSuffixes).tokens
        (ts.generateSuffixes).literal_cost tk.cost_array
        ((ts.generateSuffixes).tokens.length + 1) t0 ⟨USIZE_MAX, 0⟩).cost ≤
        segCost ts seg := by
    intro seg hseg
    induction seg using List.reverseRecOn with
    | nil =>
      exfalso
      have hj := hseg.2
      simp only [List.map_nil, List.flatten_nil] at hj
      have := congrArg List.length hj
      rw [hxb] at this
      simp at this
    | append_singleton seg' u ihseg =>
      clear ihseg
      have hu : u < ts.tokens.length :=
        hseg.1 u (List.mem_append.2 (Or.inr (List.mem_cons_self u [])))
      have hjoin := hseg.2
      rw [List.map_append, List.flatten_append] at hjoin
      simp only [List.map_cons, List.map_nil, List.flatten_cons,
        List.flatten_nil, List.append_nil] at hjoin
      have hune : (ts.tokens.getD u dTok).string ≠ [] :=
        wf_string_ne ts hwf u hu
      have husufxb : (ts.tokens.getD u dTok).string <:+ x ++ [b] :=
        ⟨(seg'.map (fun t => (ts.tokens.getD t dTok).string)).flatten, hjoin⟩
      have husuft0 : (ts.tokens.getD u dTok).string <:+
          (ts.tokens.getD t0 dTok).string :=
        ht0max u hu hune husufxb
      have hcov := chain_covers ts hwf
        ((ts.generateSuffixes).tokens.length + 1) t0 u ht0lt ht0canon hu hune
        husuft0 (by rw [hglen]; have := lenMeasure_le ts t0; omega)
      rcases hcov with ⟨v, hvmem, hvstr, hvcost⟩
      have hulen1 : 1 ≤ (ts.tokens.getD u dTok).string.length := by
        cases hul : (ts.tokens.getD u dTok).string with
        | nil => exact absurd hul hune
        | cons d ds => simp
      have hulen2 : (ts.tokens.getD u dTok).string.length ≤ x.length + 1 := by
        have := husufxb.length_le
        omega
      have hprevlen :
          (seg'.map (fun t => (ts.tokens.getD t dTok).string)).flatten.length =
          x.length + 1 - (ts.tokens.getD u dTok).string.length := by
        have := congrArg List.length hjoin
        rw [List.length_append, hxb] at this
        omega
      have hprevtake :
          (seg'.map (fun t => (ts.tokens.getD t dTok).string)).flatten =
          x.take (x.length + 1 - (ts.tokens.getD u dTok).string.length) := by
        have h1 : ((seg'.map (fun t => (ts.tokens.getD t dTok).string)).flatten
            ++ (ts.tokens.getD u dTok).string).take
              (x.length + 1 - (ts.tokens.getD u dTok).string.length) =
            (seg'.map (fun t => (ts.tokens.getD t dTok).string)).flatten := by
          rw [← hprevlen]
          exact List.take_left _ _
        rw [hjoin] at h1
        rw [← h1, take_append_le x [b] _ (by omega)]
      have hseg' : Segmentation ts
          (x.take (x.length + 1 - (ts.tokens.getD u dTok).string.length))
          seg' := by
        refine ⟨?_, hprevtake ▸ rfl⟩
        intro t ht
        exact hseg.1 t (List.mem_append.2 (Or.inl ht))
      have hminp := (hmin
        (x.length + 1 - (ts.tokens.getD u dTok).string.length)
        (by omega)).2 seg' hseg'
      have hb1 := hbestle v hvmem
      have hb2 : dpCand (ts.generateSuffixes).tokens
          (ts.generateSuffixes).literal_cost tk.cost_array v =
          (tk.cost_array.getD
            (x.length + 1 - (ts.tokens.getD u dTok).string.length) dDyn).cost +
            tokCost ts v := by
        rw [(hcand v hvmem).2.2.1, hvstr]
      rw [segCost_append, segCost_singleton]
      calc (bestOnChain (ts.generateSuffixes).tokens
            (ts.generateSuffixes).literal_cost tk.cost_array
            ((ts.generateSuffixes).tokens.length + 1) t0 ⟨USIZE_MAX, 0⟩).cost ≤
          (tk.cost_array.getD
            (x.length + 1 - (ts.tokens.getD u dTok).string.length) dDyn).cost +
            tokCost ts v := by rw [← hb2]; exact hb1
        _ ≤ segCost ts seg' + tokCost ts u := Nat.add_le_add hminp hvcost
  rw [hpb]
  refine ⟨hts, hss, rfl, ?_, ?_, ?_, ?_, ?_⟩
  · show (tk.cost_array ++ [_]).length = (x ++ [b]).length + 1
    rw [List.length_append, hlen, hxb]
    rfl
  · show (tk.cost_array ++ [_]).getD 0 dDyn = ⟨0, 0x13⟩
    rw [getD_append_lt _ _ _ _ (by omega)]
    exact h0
  · intro i hi
    rw [hxb] at hi
    rcases Nat.lt_or_ge i (x.length + 1) with hilt | hige
    · show MinCostSeg ts ((x ++ [b]).take i) (((tk.cost_array ++ [_]).getD i dDyn).cost)
      rw [getD_append_lt _ _ _ _ (by omega),
        take_append_le x [b] i (by omega)]
      exact hmin i (by omega)
    · have hie : i = x.length + 1 := by omega
      subst hie
      show MinCostSeg ts ((x ++ [b]).take (x.length + 1))
        (((tk.cost_array ++ [_]).getD (x.length + 1) dDyn).cost)
      have htk : (x ++ [b]).take (x.length + 1) = x ++ [b] := by
        rw [← hxb, List.take_length]
      rw [htk, ← hlen, getD_append_self_gen]
      exact ⟨hminex, hminall⟩
  · intro i h1 h2
    rw [hxb] at h2
    rcases Nat.lt_or_ge i (x.length + 1) with hilt | hige
    · have hold := hlink i h1 (by omega)
      unfold CellLink at hold ⊢
      rw [getD_append_lt _ _ _ _ (by omega)]
      have hst : (tk.cost_array.getD i dDyn).token_id <
          ts.tokens.length := hold.1
      rw [getD_append_lt _ _ _ _ (by rw [hlen]; omega),
        take_append_le x [b] i (by omega),
        take_append_le x [b] _ (by omega)]
      exact hold
    · have hie : i = x.length + 1 := by omega
      subst hie
      unfold CellLink
      rw [← hlen, getD_append_self_gen, hlen]
      have hid : (bestOnChain (ts.generateSuffixes).tokens
          (ts.generateSuffixes).literal_cost tk.cost_array
          ((ts.generateSuffixes).tokens.length + 1) t0
          ⟨USIZE_MAX, 0⟩).token_id = vst := by
        rw [hbesteq]
      rw [hid]
      refine ⟨hvstlt, hvstne, by omega, ?_, ?_⟩
      · rw [← hxb, List.take_length, hxb]
        exact hvstdecomp
      · rw [getD_append_lt _ _ _ _ (by rw [hlen]; omega)]
        exact hbestcost
  · intro i hi
    rw [hxb] at hi
    rcases Nat.lt_or_ge i (x.length + 1) with hilt | hige
    · show ((tk.cost_array ++ [_]).getD i dDyn).cost ≤ i * ts.literal_cost
      rw [getD_append_lt _ _ _ _ (by omega)]
      exact hbnd i (by omega)
    · have hie : i = x.length + 1 := by omega
      subst hie
      show ((tk.cost_array ++ [_]).getD (x.length + 1) dDyn).cost ≤
        (x.length + 1) * ts.literal_cost
      rw [← hlen, getD_append_self_gen, hlen]
      exact le_trans (hbestle t0 hheadmem) (hcand t0 hheadmem).2.2.2

end MainRs

namespace MainRs

/-- `process_slice` as a fold of `process_byte` (the loop bodies coincide). -/
theorem processSlice_foldl (tk : Tokenizer) (bytes : List Nat) :
    tk.processSlice bytes = bytes.foldl Tokenizer.processByte tk :=
  processSliceAux_eq_foldl bytes tk

/-- The DP invariant holds after `reset(); process_slice(B)`. -/
theorem dpInv_processSlice (ts : TokenSet) (hwf : WF ts) :
    ∀ B : List Nat, (∀ c ∈ B, c < 256) →
      B.length * ts.literal_cost < USIZE_MAX →
      DPInv ts B (((Tokenizer.new ts).reset).processSlice B) := by
  intro B
  induction B using List.reverseRecOn with
  | nil =>
    intro hB hbound
    exact dpInv_nil ts
  | append_singleton y c ihy =>
    intro hB hbound
    have hy : ∀ d ∈ y, d < 256 := fun d hd => hB d (List.mem_append.2 (Or.inl hd))
    have hc : c < 256 := hB c (List.mem_append.2 (Or.inr (List.mem_cons_self c [])))
    have hbound' : (y.length + 1) * ts.literal_cost < USIZE_MAX := by
      have h := hbound
      rw [List.length_append] at h
      simpa using h
    have hybound : y.length * ts.literal_cost < USIZE_MAX := by
      have hle : y.length * ts.literal_cost ≤
          (y.length + 1) * ts.literal_cost :=
        Nat.mul_le_mul_right _ (by omega)
      omega
    have heq : ((Tokenizer.new ts).reset).processSlice (y ++ [c]) =
        (((Tokenizer.new ts).reset).processSlice y).processByte c := by
      rw [processSlice_foldl, processSlice_foldl, List.foldl_append]
      rfl
    rw [heq]
    exact dpInv_step ts hwf y c hy hc _ (ihy hy hybound) hbound'

theorem getStatsAux_cost (tk : Tokenizer) :
    ∀ (fuel pos next : Nat) (stats : TokenStats),
      (Tokenizer.getStatsAux tk fuel pos next stats).cost = stats.cost := by
  intro fuel
  induction fuel with
  | zero => intro pos next stats; rfl
  | succ n ih =>
    intro pos next stats
    rw [Tokenizer.getStatsAux]
    by_cases hp : pos = 0
    · rw [if_pos hp]
    · rw [if_neg hp]
      exact ih _ _ _

/-- `get_stats` reports exactly the final DP cell's cost. -/
theorem getStats_cost (tk : Tokenizer) :
    (tk.getStats).cost =
      (tk.cost_array.getD (tk.cost_array.length - 1) dDyn).cost := by
  unfold Tokenizer.getStats
  dsimp only
  rw [getStatsAux_cost]

/-- The back-trace loop recovers, from the cell links, a valid segmentation
of the processed prefix whose cost telescopes to the final cell's cost. -/
theorem backtraceAux_spec (ts : TokenSet) (x : List Nat) (tk : Tokenizer)
    (hts : tk.token_set = ts.generateSuffixes)
    (h0 : (tk.cost_array.getD 0 dDyn).cost = 0)
    (hlink : ∀ i, 1 ≤ i → i ≤ x.length → CellLink ts x tk.cost_array i) :
    ∀ (fuel pos : Nat) (acc : List Nat), pos ≤ x.length → pos < fuel →
      ∃ seg, tk.backtraceAux fuel pos acc = seg ++ acc ∧
        Segmentation ts (x.take pos) seg ∧
        segCost ts seg = (tk.cost_array.getD pos dDyn).cost := by
  intro fuel
  induction fuel with
  | zero =>
    intro pos acc h1 h2
    omega
  | succ n ih =>
    intro pos acc hpos hfuel
    by_cases hp : pos = 0
    · subst hp
      refine ⟨[], ?_, ⟨?_, ?_⟩, ?_⟩
      · rw [Tokenizer.backtraceAux, if_pos rfl, List.nil_append]
      · intro t ht
        exact absurd ht (List.not_mem_nil t)
      · rfl
      · rw [h0]
        rfl
    · obtain ⟨hid_lt, hid_ne, hid_len, hid_take, hid_cost⟩ :=
        hlink pos (by omega) hpos
      have hlen1 : 1 ≤ (ts.tokens.getD
          (tk.cost_array.getD pos dDyn).token_id dTok).string.length := by
        cases hul : (ts.tokens.getD
            (tk.cost_array.getD pos dDyn).token_id dTok).string with
        | nil => exact absurd hul hid_ne
        | cons d ds => simp
      have hstep : tk.backtraceAux (n + 1) pos acc =
          tk.backtraceAux n
            (pos - (ts.tokens.getD
              (tk.cost_array.getD pos dDyn).token_id dTok).string.length)
            ((tk.cost_array.getD pos dDyn).token_id :: acc) := by
        rw [Tokenizer.backtraceAux, if_neg hp]
        dsimp only
        rw [hts, gts_string_getD]
      rcases ih (pos - (ts.tokens.getD
            (tk.cost_array.getD pos dDyn).token_id dTok).string.length)
          ((tk.cost_array.getD pos dDyn).token_id :: acc)
          (by omega) (by omega) with ⟨seg0, hseq, hseg0, hcost0⟩
      refine ⟨seg0 ++ [(tk.cost_array.getD pos dDyn).token_id], ?_, ⟨?_, ?_⟩, ?_⟩
      · rw [hstep, hseq, List.append_assoc]
        rfl
      · intro t ht
        rcases List.mem_append.1 ht with h | h
        · exact hseg0.1 t h
        · rw [List.mem_singleton.1 h]
          exact hid_lt
      · rw [List.map_append, List.flatten_append, hseg0.2]
        simp only [List.map_cons, List.map_nil, List.flatten_cons,
          List.flatten_nil, List.append_nil]
        exact hid_take.symm
      · rw [segCost_append, segCost_singleton, hcost0, hid_cost]

end MainRs

/-- C1: for every well-formed `TokenSet` (all 256 single-byte literals
present; `Tokenizer::new` generates the suffix links) and every byte buffer
`B` (with total literal cost below the `usize::MAX` sentinel), after
`reset()` followed by `process_slice(B)`: the final DP cell
`cost_array[|B|].cost` is the least cost of any segmentation of `B` into
token strings (literal cost for literals, 1 otherwise), attained by some
segmentation; `get_stats` reports exactly this cost; and the back-traced
token sequence is a valid segmentation of `B` attaining exactly this
cost. -/
theorem dp_optimal_and_backtrace (ts : MainRs.TokenSet) (B : List Nat)
    (hwf : MainRs.WF ts) (hB : ∀ b ∈ B, b < 256)
    (hbound : B.length * ts.literal_cost < MainRs.USIZE_MAX) :
    MainRs.MinCostSeg ts B
      (((((MainRs.Tokenizer.new ts).reset).processSlice B).cost_array.getD
        B.length MainRs.dDyn).cost) ∧
    ((((MainRs.Tokenizer.new ts).reset).processSlice B).getStats).cost =
      ((((MainRs.Tokenizer.new ts).reset).processSlice B).cost_array.getD
        B.length MainRs.dDyn).cost ∧
    MainRs.Segmentation ts B
      (((MainRs.Tokenizer.new ts).reset).processSlice B).backtrace ∧
    MainRs.segCost ts
        (((MainRs.Tokenizer.new ts).reset).processSlice B).backtrace =
      ((((MainRs.Tokenizer.new ts).reset).processSlice B).cost_array.getD
        B.length MainRs.dDyn).cost := by
  obtain ⟨hts, hss, hcs, hlen, h0, hmin, hlink, hbnd⟩ :=
    MainRs.dpInv_processSlice ts hwf B hB hbound
  have hA : MainRs.MinCostSeg ts B
      (((((MainRs.Tokenizer.new ts).reset).processSlice B).cost_array.getD
        B.length MainRs.dDyn).cost) := by
    have h := hmin B.length (le_refl _)
    rwa [List.take_length] at h
  have hG : ((((MainRs.Tokenizer.new ts).reset).processSlice B).getStats).cost =
      ((((MainRs.Tokenizer.new ts).reset).processSlice B).cost_array.getD
        B.length MainRs.dDyn).cost := by
    rw [MainRs.getStats_cost, hlen, Nat.add_sub_cancel]
  have h0c : ((((MainRs.Tokenizer.new ts).reset).processSlice B).cost_array.getD
      0 MainRs.dDyn).cost = 0 := by
    rw [h0]
  have hbtdef : (((MainRs.Tokenizer.new ts).reset).processSlice B).backtrace =
      (((MainRs.Tokenizer.new ts).reset).processSlice B).backtraceAux
        (B.length + 1) B.length [] := by
    show (((MainRs.Tokenizer.new ts).reset).processSlice B).backtraceAux
        (((MainRs.Tokenizer.new ts).reset).processSlice B).cost_array.length
        ((((MainRs.Tokenizer.new ts).reset).processSlice B).cost_array.length
          - 1) [] = _
    rw [hlen, Nat.add_sub_cancel]
  rcases MainRs.backtraceAux_spec ts B
      (((MainRs.Tokenizer.new ts).reset).processSlice B) hts h0c hlink
      (B.length + 1) B.length [] (le_refl _) (Nat.lt_succ_self _) with
    ⟨seg, hsegeq, hseg, hsegcost⟩
  rw [List.append_nil] at hsegeq
  rw [List.take_length] at hseg
  refine ⟨hA, hG, ?_, ?_⟩
  · rw [hbtdef, hsegeq]
    exact hseg
  · rw [hbtdef, hsegeq]
    exact hsegcost

theorem dp_optimal_and_backtrace_witness :
    MainRs.WF MainRs.tsLit ∧
    (∀ b ∈ [97, 98], b < 256) ∧
    ([97, 98].length * MainRs.tsLit.literal_cost < MainRs.USIZE_MAX) ∧
    (MainRs.MinCostSeg MainRs.tsLit [97, 98]
      (((((MainRs.Tokenizer.new MainRs.tsLit).reset).processSlice
        [97, 98]).cost_array.getD ([97, 98] : List Nat).length
        MainRs.dDyn).cost) ∧
    ((((MainRs.Tokenizer.new MainRs.tsLit).reset).processSlice
        [97, 98]).getStats).cost =
      ((((MainRs.Tokenizer.new MainRs.tsLit).reset).processSlice
        [97, 98]).cost_array.getD ([97, 98] : List Nat).length
        MainRs.dDyn).cost ∧
    MainRs.Segmentation MainRs.tsLit [97, 98]
      (((MainRs.Tokenizer.new MainRs.tsLit).reset).processSlice
        [97, 98]).backtrace ∧
    MainRs.segCost MainRs.tsLit
        (((MainRs.Tokenizer.new MainRs.tsLit).reset).processSlice
          [97, 98]).backtrace =
      ((((MainRs.Tokenizer.new MainRs.tsLit).reset).processSlice
        [97, 98]).cost_array.getD ([97, 98] : List Nat).length
        MainRs.dDyn).cost) :=
  ⟨MainRs.WF_tsLit, by decide, by decide,
   dp_optimal_and_backtrace MainRs.tsLit [97, 98] MainRs.WF_tsLit
     (by decide) (by decide)⟩
